import Mathlib

/-!
# BGPView — verification of the binary view codec and consumer shims

Shallow embedding of the parts of the bgpview repository that the claims
C1–C10 concern:

* the binary view file codec `bgpview_io_file_write` / `bgpview_io_file_read`
  (source: `bgpview_io_file.c`, given as `src/unnamed/part_000`), modelled at
  byte level over `List Nat` streams (each element one octet);
* the view container operations the codec calls (`bgpview_iter_add_peer`,
  `bgpview_iter_activate_peer`, `bgpstream_as_path_store_insert_path`,
  `bgpview_iter_add_pfx_peer_by_id`, `bgpview_iter_pfx_activate_peer`).
  Their implementation (`bgpview.c`, the as-path store) is not part of the
  provided sources, so these are modelled from the spec §4.1–§4.3;
* the view-sender consumer's sync/diff decision, full-feed filter and
  `graphite_safe` (source: `src/lib/consumers/bvc_viewsender.c`);
* the Kafka shutdown drain loop (source:
  `src/lib/io/kafka/bgpview_io_kafka.c`).

Modelling conventions:

* Machine integers are `Nat` with explicit `% 256` / width bounds where the C
  code truncates. A byte stream is a `List Nat` of octets.
* `htons`/`htonl` (big-endian) writes are `bytesBE16`/`bytesBE32`. Fields the
  C code writes without byte-swapping (`WRITE_VAL(idx)` for AS-path indices
  and `WRITE_VAL(path_len)`, flagged "@todo make platform independent" in the
  source) are emitted in host byte order, modelled as little-endian
  (`bytesHost16`/`bytesHost32`) — the reference hosts are little-endian x86.
* `assert(...)` is modelled as a no-op (NDEBUG / release semantics); the
  source's cross-check asserts therefore check nothing here, exactly as in a
  release build.
* A short `wandio_read` inside `READ_VAL` only logs in C and leaves the
  target uninitialized; the model treats any short read as a decode failure.
  All concrete streams used in theorems below fail (or succeed) on reads the
  C code actually checks, so no theorem depends on this choice.
* Fallible operations return `Option`; the decoder additionally threads the
  caller's view so that mutations performed before a failure are visible, as
  they are in the C code.
-/

/-! ## Magic numbers and constants (source lines 36–44) -/

def VIEW_MAGIC : Nat := 0x42475056

def VIEW_START_MAGIC : Nat := 0x53545254

def VIEW_END_MAGIC : Nat := 0x56454E44

def VIEW_PEER_END_MAGIC : Nat := 0x50454E44

def VIEW_PATH_END_MAGIC : Nat := 0x50415448

def VIEW_PFX_END_MAGIC : Nat := 0x58454E44

/-! ## Byte-level encodings -/

/-- Big-endian bytes of a 16-bit value, as produced by `htons` followed by a
raw 2-byte write. Values ≥ 2^16 are truncated, as in C. -/
def bytesBE16 (n : Nat) : List Nat := [n / 256 % 256, n % 256]

/-- Big-endian bytes of a 32-bit value (`htonl` + raw 4-byte write). -/
def bytesBE32 (n : Nat) : List Nat :=
  [n / 16777216 % 256, n / 65536 % 256, n / 256 % 256, n % 256]

/-- Host-order bytes of a 16-bit value: the source writes these fields with
`WRITE_VAL` and no byte swap; the reference hosts are little-endian. -/
def bytesHost16 (n : Nat) : List Nat := [n % 256, n / 256 % 256]

/-- Host-order bytes of a 32-bit value (no byte swap in the source). -/
def bytesHost32 (n : Nat) : List Nat :=
  [n % 256, n / 256 % 256, n / 65536 % 256, n / 16777216 % 256]

/-- Specification-side big-endian encoding: most significant base-256 digit
first. Used to state byte-order claims independently of the encoder's
hand-rolled digit lists. -/
def beSpec (w n : Nat) : List Nat :=
  (List.range w).map (fun i => n / 256 ^ (w - 1 - i) % 256)

/-- An 8-byte magic marker: generic `VIEW_MAGIC` then the section magic,
both big-endian (`WRITE_MAGIC`, source lines 56–62). -/
def magicBytes (m : Nat) : List Nat := bytesBE32 VIEW_MAGIC ++ bytesBE32 m

/-! ## Data model -/

/-- An IP address as the codec sees it: 4 or 16 raw address bytes. -/
inductive IPAddr where
  | v4 : List Nat → IPAddr
  | v6 : List Nat → IPAddr
deriving DecidableEq

/-- A peer signature `(collector, peer_ip, peer_asn)` (spec §3). The
collector name is kept as its byte string. -/
structure PeerSig where
  collector : List Nat
  ip : IPAddr
  asn : Nat
deriving DecidableEq

/-- A prefix: address plus mask length. -/
structure Pfx where
  addr : IPAddr
  maskLen : Nat
deriving DecidableEq

/-- One peer of a view: its interned id, signature and active flag. -/
structure PeerRec where
  pid : Nat
  sig : PeerSig
  active : Bool
deriving DecidableEq

/-- One stored AS path: store index, core flag (u8) and the opaque path
encoding bytes (host byte order per spec §4.2). -/
structure StorePath where
  idx : Nat
  isCore : Nat
  data : List Nat
deriving DecidableEq

/-- One pfx-peer edge: peer id, AS-path store index, active flag. -/
structure PfxPeerRec where
  pid : Nat
  pathIdx : Nat
  active : Bool
deriving DecidableEq

/-- One prefix entry of a view: the prefix, its active flag and its
pfx-peers. -/
structure PfxEntry where
  pfx : Pfx
  active : Bool
  peers : List PfxPeerRec
deriving DecidableEq

/-- A view (spec §3): time, peers, the AS-path store and the prefix table.
Maps are modelled as association lists; the stores are per-view here, which
matches the decode targets (a fresh view with fresh stores). -/
structure View where
  time : Nat
  peers : List PeerRec
  paths : List StorePath
  pfxs : List PfxEntry
deriving DecidableEq

/-- The empty (freshly created) view. -/
def empty_view : View := ⟨0, [], [], []⟩

/-! ## View operations used by the codec

Modelled from the spec: the implementation of the view container
(`bgpview.c`) and of the AS-path store is not among the provided sources;
these definitions follow spec §4.1–§4.3. -/

/-- Modelled from the spec: `add_peer` interns the signature (same triple →
same id, ids are non-zero and fresh ids are assigned sequentially) and
creates an inactive `PeerInfo` if new (spec §4.1, §4.3). Returns the peer id
and the updated view. -/
def bgpview_add_peer (v : View) (sig : PeerSig) : Nat × View :=
  match v.peers.find? (fun p => decide (p.sig = sig)) with
  | some p => (p.pid, v)
  | none =>
    let pid := v.peers.length + 1
    (pid, { v with peers := v.peers ++ [⟨pid, sig, false⟩] })

/-- Modelled from the spec: `activate_peer` sets the peer's active flag
(spec §4.3). -/
def bgpview_activate_peer (v : View) (pid : Nat) : View :=
  { v with
    peers := v.peers.map (fun p =>
      if p.pid = pid then { p with active := true } else p) }

/-- Modelled from the spec: the AS-path store's `insert(encoding, is_core)`
is idempotent per `(encoding, is_core)` and assigns fresh sequential indices
(spec §4.2). Returns the path index and the updated view. -/
def bgpview_store_insert (v : View) (data : List Nat) (core : Nat) :
    Nat × View :=
  match v.paths.find? (fun p => decide (p.data = data ∧ p.isCore = core)) with
  | some p => (p.idx, v)
  | none =>
    (v.paths.length,
     { v with paths := v.paths ++ [⟨v.paths.length, core, data⟩] })

/-- Insert-or-update of one pfx-peer inside a prefix entry's peer list;
the updated/new pfx-peer is left inactive (spec §4.3 `add_pfx_peer`). -/
def pfx_peer_upsert (ps : List PfxPeerRec) (pid pathIdx : Nat) :
    List PfxPeerRec :=
  if (ps.find? (fun q => decide (q.pid = pid))).isSome then
    ps.map (fun q => if q.pid = pid then ⟨pid, pathIdx, false⟩ else q)
  else ps ++ [⟨pid, pathIdx, false⟩]

/-- Modelled from the spec: `add_pfx_peer(pfx, PeerID, PathID)` inserts or
updates, leaving the pfx-peer inactive (spec §4.3). Creates the prefix entry
(inactive) on first insert. Models both `bgpview_iter_add_pfx_peer_by_id`
and `bgpview_iter_pfx_add_peer_by_id`, which differ only in how the C
iterator seeks the prefix. -/
def bgpview_add_pfx_peer (v : View) (pfx : Pfx) (pid pathIdx : Nat) : View :=
  if (v.pfxs.find? (fun e => decide (e.pfx = pfx))).isSome then
    { v with
      pfxs := v.pfxs.map (fun e =>
        if e.pfx = pfx then { e with peers := pfx_peer_upsert e.peers pid pathIdx }
        else e) }
  else
    { v with pfxs := v.pfxs ++ [⟨pfx, false, [⟨pid, pathIdx, false⟩]⟩] }

/-- Modelled from the spec: `activate_pfx_peer` sets the pfx-peer active and
propagates invariants 1–3 of §4.3: the prefix becomes active and the peer
becomes active. -/
def bgpview_pfx_activate_peer (v : View) (pfx : Pfx) (pid : Nat) : View :=
  { v with
    pfxs := v.pfxs.map (fun e =>
      if e.pfx = pfx then
        { e with
          active := true,
          peers := e.peers.map (fun q =>
            if q.pid = pid then { q with active := true } else q) }
      else e),
    peers := v.peers.map (fun p =>
      if p.pid = pid then { p with active := true } else p) }

/-! ## Encoder (`bgpview_io_file_write`, source lines 104–413, 753–800) -/

/-- The caller-supplied write filter callback, invoked at three
granularities (`BGPVIEW_IO_FILTER_PEER/PFX/PFX_PEER`). As in C it returns an
`Int`: negative aborts the write, zero skips the item, positive keeps it.
The C callback reads the iterator's current position; here it receives the
data at that position. -/
structure WriteFilter where
  onPeer : PeerRec → Int
  onPfx : PfxEntry → Int
  onPfxPeer : PfxEntry → PfxPeerRec → Int

/-- Filter verdict for a peer: no callback keeps everything (source lines
184–192). -/
def wf_peer_verdict (cb : Option WriteFilter) (p : PeerRec) : Int :=
  match cb with
  | none => 1
  | some f => f.onPeer p

def wf_pfx_verdict (cb : Option WriteFilter) (e : PfxEntry) : Int :=
  match cb with
  | none => 1
  | some f => f.onPfx e

def wf_pfx_peer_verdict (cb : Option WriteFilter) (e : PfxEntry)
    (q : PfxPeerRec) : Int :=
  match cb with
  | none => 1
  | some f => f.onPfxPeer e q

/-- Wire form of an IP address (`write_ip`, source lines 104–129): a length
byte (4 or 16) then the raw address bytes. -/
def write_ip : IPAddr → List Nat
  | .v4 b => 4 :: b
  | .v6 b => 16 :: b

/-- Wire form of one peer record (source lines 194–220): peer id (u16 BE),
collector length (u8), collector bytes, IP, ASN (u32 BE). -/
def write_peer_rec (p : PeerRec) : List Nat :=
  bytesBE16 p.pid ++
    (p.sig.collector.length % 256) :: (p.sig.collector ++
      (write_ip p.sig.ip ++ bytesBE32 p.sig.asn))

/-- Peer-section body (`write_peers` loop, source lines 182–221): emits the
records of the peers the filter keeps, counting them. `none` on a negative
callback verdict. -/
def write_peers_go (cb : Option WriteFilter) :
    List PeerRec → Option (List Nat × Nat)
  | [] => some ([], 0)
  | p :: rest =>
    if wf_peer_verdict cb p < 0 then none
    else if wf_peer_verdict cb p = 0 then write_peers_go cb rest
    else
      match write_peers_go cb rest with
      | none => none
      | some (bs, c) => some (write_peer_rec p ++ bs, c + 1)

/-- Peer section (`write_peers`, source lines 163–235): active peers, then
the end-of-peers magic, then the peer count (u16 BE) for cross-validation. -/
def write_peers (v : View) (cb : Option WriteFilter) : Option (List Nat) :=
  match write_peers_go cb (v.peers.filter (fun p => p.active)) with
  | none => none
  | some (bs, c) =>
    some (bs ++ magicBytes VIEW_PEER_END_MAGIC ++ bytesBE16 c)

/-- Wire form of one path record (source lines 263–283): path index
(u32, host order — no `htonl` in the source), core flag (u8), path length
(u16, host order — no `htons`), then the raw path bytes. -/
def write_path_rec (p : StorePath) : List Nat :=
  bytesHost32 p.idx ++
    (p.isCore % 256) :: (bytesHost16 p.data.length ++ p.data)

/-- Path section (`write_paths`, source lines 237–298): every path in the
store, then the path magic and the path count (u32 BE). -/
def write_paths (v : View) : List Nat :=
  (v.paths.map write_path_rec).flatten ++
    magicBytes VIEW_PATH_END_MAGIC ++ bytesBE32 v.paths.length

/-- Wire form of one pfx-peer record (source lines 324–334): peer id
(u16 BE) then the AS-path index (u32, host order — no byte swap). -/
def write_pfx_peer_rec (q : PfxPeerRec) : List Nat :=
  bytesBE16 q.pid ++ bytesHost32 q.pathIdx

/-- Pfx-peer list of one prefix (`write_pfx_peers`, source lines 300–340):
active pfx-peers the filter keeps, with their count. -/
def write_pfx_peers_go (cb : Option WriteFilter) (e : PfxEntry) :
    List PfxPeerRec → Option (List Nat × Nat)
  | [] => some ([], 0)
  | q :: rest =>
    if wf_pfx_peer_verdict cb e q < 0 then none
    else if wf_pfx_peer_verdict cb e q = 0 then write_pfx_peers_go cb e rest
    else
      match write_pfx_peers_go cb e rest with
      | none => none
      | some (bs, c) => some (write_pfx_peer_rec q ++ bs, c + 1)

/-- Prefix-section body (`write_pfxs` loop, source lines 356–400). Note the
source behaviour modelled faithfully here: the prefix address and mask
length are written BEFORE the pfx-peers are counted; when every pfx-peer of
the prefix is filtered out (`peers_cnt == 0`) the loop `continue`s, so those
header bytes remain in the stream but no end-of-peers magic or count
follows and the prefix is not counted. -/
def write_pfxs_go (cb : Option WriteFilter) :
    List PfxEntry → Option (List Nat × Nat)
  | [] => some ([], 0)
  | e :: rest =>
    if wf_pfx_verdict cb e < 0 then none
    else if wf_pfx_verdict cb e = 0 then write_pfxs_go cb rest
    else
      match write_pfx_peers_go cb e (e.peers.filter (fun q => q.active)) with
      | none => none
      | some (pbs, pc) =>
        match write_pfxs_go cb rest with
        | none => none
        | some (bs, c) =>
          if pc = 0 then
            some ((write_ip e.pfx.addr ++ (e.pfx.maskLen % 256) :: pbs) ++ bs,
                  c)
          else
            some ((write_ip e.pfx.addr ++ (e.pfx.maskLen % 256) :: pbs) ++
                    magicBytes VIEW_PEER_END_MAGIC ++ bytesBE16 pc ++ bs,
                  c + 1)

/-- Prefix section (`write_pfxs`, source lines 342–413): active prefixes,
then the prefix magic and the prefix count (u32 BE). -/
def write_pfxs (v : View) (cb : Option WriteFilter) : Option (List Nat) :=
  match write_pfxs_go cb (v.pfxs.filter (fun e => e.active)) with
  | none => none
  | some (bs, c) => some (bs ++ magicBytes VIEW_PFX_END_MAGIC ++ bytesBE32 c)

/-- The full encoder (`bgpview_io_file_write`, source lines 753–800): start
magic, time (u32 BE), peer section, path section, prefix section, end
magic. `none` models the error return (filter callback failure). -/
def bgpview_io_file_write (v : View) (cb : Option WriteFilter) :
    Option (List Nat) :=
  match write_peers v cb with
  | none => none
  | some pbs =>
    match write_pfxs v cb with
    | none => none
    | some xbs =>
      some (magicBytes VIEW_START_MAGIC ++ bytesBE32 v.time ++ pbs ++
              write_paths v ++ xbs ++ magicBytes VIEW_END_MAGIC)

/-! ## Decoder primitives -/

/-- Checks for an 8-byte magic marker at the head of the stream; consumes it
if present, leaves the stream untouched otherwise (`check_magic`, source
lines 73–102; a failed 8-byte peek also returns false). -/
def check_magic (m : Nat) (s : List Nat) : Bool × List Nat :=
  if s.take 8 = magicBytes m then (true, s.drop 8) else (false, s)

/-- Read one byte. -/
def readU8 : List Nat → Option (Nat × List Nat)
  | [] => none
  | b :: r => some (b, r)

/-- Read a u16 that was transmitted big-endian (`READ_VAL` + `ntohs`). -/
def readU16BE : List Nat → Option (Nat × List Nat)
  | a :: b :: r => some (a * 256 + b, r)
  | _ => none

/-- Read a u32 that was transmitted big-endian (`READ_VAL` + `ntohl`). -/
def readU32BE : List Nat → Option (Nat × List Nat)
  | a :: b :: c :: d :: r => some (((a * 256 + b) * 256 + c) * 256 + d, r)
  | _ => none

/-- Read a u16 in host order (fields read with `READ_VAL` and no `ntohs`):
little-endian on the reference hosts. -/
def readU16Host : List Nat → Option (Nat × List Nat)
  | a :: b :: r => some (a + 256 * b, r)
  | _ => none

/-- Read a u32 in host order (no `ntohl` in the source). -/
def readU32Host : List Nat → Option (Nat × List Nat)
  | a :: b :: c :: d :: r => some (a + 256 * (b + 256 * (c + 256 * d)), r)
  | _ => none

/-- Read `n` raw bytes. -/
def readN (n : Nat) (s : List Nat) : Option (List Nat × List Nat) :=
  if n ≤ s.length then some (s.take n, s.drop n) else none

/-- Read an IP address (`read_ip`, source lines 131–161): length byte, then
4 bytes (v4) or 16 bytes (v6); any other length is invalid. -/
def read_ip (s : List Nat) : Option (IPAddr × List Nat) :=
  match readU8 s with
  | none => none
  | some (len, r) =>
    if len = 4 then
      match readN 4 r with
      | some (b, r2) => some (.v4 b, r2)
      | none => none
    else if len = 16 then
      match readN 16 r with
      | some (b, r2) => some (.v6 b, r2)
      | none => none
    else none

/-- Grow-and-set of a decoder id-translation table (`realloc` + zero-fill +
assignment, source lines 483–502). Fresh slots are 0 ("reserved"); for the
path table the C code leaves fresh slots uninitialized, modelled as 0 as
well (only slots that were written are ever read on streams the encoder
produces). -/
def idmap_set (m : List Nat) (i x : Nat) : List Nat :=
  (m ++ List.replicate (i + 1 - m.length) 0).set i x

/-- Lookup in an id-translation table; out-of-range reads yield 0 (the C
code would read garbage, guarded only by an `assert`). -/
def idmap_get (m : List Nat) (i : Nat) : Nat := m.getD i 0

/-! ## Decoder (`bgpview_io_file_read`, source lines 415–749, 802–872) -/

/-- End of the peer section (source lines 507–513): read the peer count
(u16 BE); the `assert(pc == peers_rx)` cross-check is compiled out. -/
def read_peers_fin (idmap : List Nat) (s : List Nat) (v : View) :
    Option (List Nat × List Nat) × View :=
  match readU16BE s with
  | none => (none, v)
  | some (_, r) => (some (idmap, r), v)

/-- Peer-section decode loop (`read_peers`, source lines 437–505). The fuel
argument models the `for (i = 0; i < UINT16_MAX; i++)` bound; one unit is
spent per record. The view is threaded and returned even on failure, as the
C code mutates the caller's view in place. -/
def read_peers_go (peerCb : Option (PeerSig → Int)) :
    Nat → List Nat → View → List Nat → Option (List Nat × List Nat) × View
  | 0, s, v, idmap => read_peers_fin idmap s v
  | fuel + 1, s, v, idmap =>
    match check_magic VIEW_PEER_END_MAGIC s with
    | (true, r) => read_peers_fin idmap r v
    | (false, _) =>
      match readU16BE s with
      | none => (none, v)
      | some (pid0, r1) =>
        match readU8 r1 with
        | none => (none, v)
        | some (len, r2) =>
          match readN len r2 with
          | none => (none, v)
          | some (col, r3) =>
            match read_ip r3 with
            | none => (none, v)
            | some (ip, r4) =>
              match readU32BE r4 with
              | none => (none, v)
              | some (asn, r5) =>
                let ps : PeerSig := ⟨col, ip, asn⟩
                let keep : Int :=
                  match peerCb with
                  | none => 1
                  | some f => f ps
                if keep < 0 then (none, v)
                else if keep = 0 then read_peers_go peerCb fuel r5 v idmap
                else
                  let pv := bgpview_add_peer v ps
                  let v2 := bgpview_activate_peer pv.2 pv.1
                  read_peers_go peerCb fuel r5 v2 (idmap_set idmap pid0 pv.1)

/-- Peer section decode (`read_peers`): at most `UINT16_MAX` records, then
the cross-check count. Returns the id-translation table. -/
def read_peers (peerCb : Option (PeerSig → Int)) (s : List Nat) (v : View) :
    Option (List Nat × List Nat) × View :=
  read_peers_go peerCb 65535 s v []

/-- End of the path section (source lines 597–603): read the path count
(u32 BE); the `assert(pc == paths_rx)` cross-check is compiled out. -/
def read_paths_fin (pm : List Nat) (s : List Nat) (v : View) :
    Option (List Nat × List Nat) × View :=
  match readU32BE s with
  | none => (none, v)
  | some (_, r) => (some (pm, r), v)

/-- Path-section decode loop (`read_paths`, source lines 549–595): path
index (u32 host order), core flag (u8), path length (u16 host order), raw
path bytes; each path is inserted into the view's path store and recorded
in the path-id translation table. -/
def read_paths_go :
    Nat → List Nat → View → List Nat → Option (List Nat × List Nat) × View
  | 0, s, v, pm => read_paths_fin pm s v
  | fuel + 1, s, v, pm =>
    match check_magic VIEW_PATH_END_MAGIC s with
    | (true, r) => read_paths_fin pm r v
    | (false, _) =>
      match readU32Host s with
      | none => (none, v)
      | some (pathidx, r1) =>
        match readU8 r1 with
        | none => (none, v)
        | some (core, r2) =>
          match readU16Host r2 with
          | none => (none, v)
          | some (pathlen, r3) =>
            match readN pathlen r3 with
            | none => (none, v)
            | some (data, r4) =>
              let iv := bgpview_store_insert v data core
              read_paths_go fuel r4 iv.2 (idmap_set pm pathidx iv.1)

/-- Path section decode (`read_paths`): the loop bound is
`paths_rx < UINT32_MAX`. -/
def read_paths (s : List Nat) (v : View) :
    Option (List Nat × List Nat) × View :=
  read_paths_go 4294967295 s v []

/-- Looks up the store path a decoded pfx-peer refers to, for the pfx-peer
filter callback (source lines 695–698); an unknown id yields a default, the
C code would pass a dangling pointer. -/
def store_path_data (v : View) (localIdx : Nat) : List Nat × Nat :=
  match v.paths.find? (fun p => decide (p.idx = localIdx)) with
  | some p => (p.data, p.isCore)
  | none => ([], 0)

/-- Pfx-peer decode loop of one prefix (`read_pfxs` inner loop, source
lines 673–737, then the per-prefix count at lines 734–737). `skip` is the
`skip_pfx` flag: records are still consumed but not applied. Each applied
record is added (inactive) then immediately activated (lines 708–731). -/
def read_pfx_peers_go (pfxPeerCb : Option (List Nat × Nat → Int))
    (pfx : Pfx) (skip : Bool) (pm idm : List Nat) :
    Nat → List Nat → View → Option (List Nat) × View
  | 0, s, v =>
    (match readU16BE s with
     | none => (none, v)
     | some (_, r) => (some r, v))
  | fuel + 1, s, v =>
    match check_magic VIEW_PEER_END_MAGIC s with
    | (true, r) =>
      (match readU16BE r with
       | none => (none, v)
       | some (_, r2) => (some r2, v))
    | (false, _) =>
      match readU16BE s with
      | none => (none, v)
      | some (peerid, r1) =>
        match readU32Host r1 with
        | none => (none, v)
        | some (pathidx, r2) =>
          if skip then read_pfx_peers_go pfxPeerCb pfx skip pm idm fuel r2 v
          else
            let keep : Int :=
              match pfxPeerCb with
              | none => 1
              | some f => f (store_path_data v (idmap_get pm pathidx))
            if keep < 0 then (none, v)
            else if keep = 0 then
              read_pfx_peers_go pfxPeerCb pfx skip pm idm fuel r2 v
            else
              let v1 := bgpview_add_pfx_peer v pfx (idmap_get idm peerid)
                          (idmap_get pm pathidx)
              let v2 := bgpview_pfx_activate_peer v1 pfx
                          (idmap_get idm peerid)
              read_pfx_peers_go pfxPeerCb pfx skip pm idm fuel r2 v2

/-- Prefix-section decode loop (`read_pfxs`, source lines 643–745): prefix
address and mask length, pfx filter, the pfx-peer loop, then finally the
prefix count (u32 BE; its cross-check assert is compiled out). -/
def read_pfxs_go (pfxCb : Option (Pfx → Int))
    (pfxPeerCb : Option (List Nat × Nat → Int)) (pm idm : List Nat) :
    Nat → List Nat → View → Option (List Nat) × View
  | 0, s, v =>
    (match readU32BE s with
     | none => (none, v)
     | some (_, r) => (some r, v))
  | fuel + 1, s, v =>
    match check_magic VIEW_PFX_END_MAGIC s with
    | (true, r) =>
      (match readU32BE r with
       | none => (none, v)
       | some (_, r2) => (some r2, v))
    | (false, _) =>
      match read_ip s with
      | none => (none, v)
      | some (addr, r1) =>
        match readU8 r1 with
        | none => (none, v)
        | some (mask, r2) =>
          let pfx : Pfx := ⟨addr, mask⟩
          let verdict : Int :=
            match pfxCb with
            | none => 1
            | some f => f pfx
          if verdict < 0 then (none, v)
          else
            match read_pfx_peers_go pfxPeerCb pfx (verdict = 0) pm idm
                    65535 r2 v with
            | (none, v1) => (none, v1)
            | (some r3, v1) =>
              read_pfxs_go pfxCb pfxPeerCb pm idm fuel r3 v1

/-- Decoder result: 0 = EOF before any view, 1 = a view was decoded,
-1 = error. -/
inductive ReadRes where
  | eof
  | okv
  | err
deriving DecidableEq

/-- The full decoder (`bgpview_io_file_read`, source lines 802–872). Returns
the result code, the (possibly partially mutated) caller's view, and the
unconsumed stream. Faithful details: the view's time is set before any
section is read (lines 831–834); a failure later leaves earlier mutations in
place; a missing end-of-view magic is only logged (lines 853–855) and the
decoder still reports success. -/
def bgpview_io_file_read (s : List Nat) (v : View)
    (peerCb : Option (PeerSig → Int)) (pfxCb : Option (Pfx → Int))
    (pfxPeerCb : Option (List Nat × Nat → Int)) :
    ReadRes × View × List Nat :=
  if s.length = 0 then (.eof, v, s)
  else
    match check_magic VIEW_START_MAGIC s with
    | (false, _) => (.err, v, s)
    | (true, r1) =>
      match readU32BE r1 with
      | none => (.err, v, r1)
      | some (t, r2) =>
        let v1 : View := { v with time := t }
        match read_peers peerCb r2 v1 with
        | (none, v2) => (.err, v2, r2)
        | (some (idm, r3), v2) =>
          match read_paths r3 v2 with
          | (none, v3) => (.err, v3, r3)
          | (some (pm, r4), v3) =>
            match read_pfxs_go pfxCb pfxPeerCb pm idm 4294967295 r4 v3 with
            | (none, v4) => (.err, v4, r4)
            | (some r5, v4) =>
              match check_magic VIEW_END_MAGIC r5 with
              | (true, r6) => (.okv, v4, r6)
              | (false, _) => (.okv, v4, r5)

/-! ## Decode semantics as folds

The byte-level stepping lemmas below factor the decoder's effect on the view
through these folds, which repeat the view operations the decoder performs
per record. -/

/-- Effect of decoding one peer record on (view, peer idmap). -/
def decode_peer_step (vi : View × List Nat) (p : PeerRec) :
    View × List Nat :=
  let pv := bgpview_add_peer vi.1 p.sig
  (bgpview_activate_peer pv.2 pv.1, idmap_set vi.2 p.pid pv.1)

def decode_peers_fold (v : View) (im : List Nat) (ps : List PeerRec) :
    View × List Nat :=
  ps.foldl decode_peer_step (v, im)

/-- Effect of decoding one path record on (view, path idmap). -/
def decode_path_step (vi : View × List Nat) (sp : StorePath) :
    View × List Nat :=
  let iv := bgpview_store_insert vi.1 sp.data (sp.isCore % 256)
  (iv.2, idmap_set vi.2 sp.idx iv.1)

def decode_paths_fold (v : View) (pm : List Nat) (sps : List StorePath) :
    View × List Nat :=
  sps.foldl decode_path_step (v, pm)

/-- Effect of decoding one pfx-peer record of prefix `pfx`. -/
def decode_pp_step (pfx : Pfx) (pm idm : List Nat) (v : View)
    (q : PfxPeerRec) : View :=
  bgpview_pfx_activate_peer
    (bgpview_add_pfx_peer v pfx (idmap_get idm q.pid) (idmap_get pm q.pathIdx))
    pfx (idmap_get idm q.pid)

def decode_pp_fold (pfx : Pfx) (pm idm : List Nat) (v : View)
    (pps : List PfxPeerRec) : View :=
  pps.foldl (decode_pp_step pfx pm idm) v

/-- Effect of decoding one prefix block. -/
def decode_pfx_step (pm idm : List Nat) (v : View) (e : PfxEntry) : View :=
  decode_pp_fold ⟨e.pfx.addr, e.pfx.maskLen % 256⟩ pm idm v
    (e.peers.filter (fun q => q.active))

def decode_pfxs_fold (pm idm : List Nat) (v : View)
    (es : List PfxEntry) : View :=
  es.foldl (decode_pfx_step pm idm) v

/-- Wire bytes of one whole prefix block as the encoder emits it for a
prefix with a nonempty surviving pfx-peer list: header, pfx-peer records,
end-of-peers magic, pfx-peer count. -/
def pfx_block (e : PfxEntry) : List Nat :=
  write_ip e.pfx.addr ++ (e.pfx.maskLen % 256) ::
    (((e.peers.filter (fun q => q.active)).map write_pfx_peer_rec).flatten ++
      magicBytes VIEW_PEER_END_MAGIC ++
      bytesBE16 (e.peers.filter (fun q => q.active)).length)

/-- The prefix as the decoder reconstructs it: the mask-length byte is the
original mask length reduced mod 256 (u8 truncation). -/
def pfx_norm (e : PfxEntry) : Pfx := ⟨e.pfx.addr, e.pfx.maskLen % 256⟩

/-- The pfx-peer as the decoder reconstructs it: both ids pushed through
the decoder's translation tables, and active. -/
def decode_pp_map (pm idm : List Nat) (q : PfxPeerRec) : PfxPeerRec :=
  ⟨idmap_get idm q.pid, idmap_get pm q.pathIdx, true⟩

/-- The peer list a fresh view ends up with after interning the given
peers in order: sequential ids starting at `n + 1`, all active. -/
def renum_peers : Nat → List PeerRec → List PeerRec
  | _, [] => []
  | n, p :: tl => ⟨n + 1, p.sig, true⟩ :: renum_peers (n + 1) tl

/-- The path store a fresh view ends up with after interning the given
paths in order: sequential indices starting at `n`, core flags truncated
to a byte. -/
def renum_paths : Nat → List StorePath → List StorePath
  | _, [] => []
  | n, sp :: tl => ⟨n, sp.isCore % 256, sp.data⟩ :: renum_paths (n + 1) tl

/-! ## Well-formedness and view equivalence -/

/-- Wire-representable IP address: correct byte count, octet range. -/
def ip_wf : IPAddr → Prop
  | .v4 b => b.length = 4 ∧ ∀ x ∈ b, x < 256
  | .v6 b => b.length = 16 ∧ ∀ x ∈ b, x < 256

/-- Wire-representable peer signature: collector is a C string of at most
255 non-NUL octets, the ASN fits in 32 bits. -/
def sig_wf (s : PeerSig) : Prop :=
  s.collector.length ≤ 255 ∧ (∀ x ∈ s.collector, x < 256 ∧ x ≠ 0) ∧
    ip_wf s.ip ∧ s.asn < 4294967296

/-- Well-formed view: the container invariants of spec §4.3 (distinct ids,
distinct interned signatures/paths, the active-flag invariants, referenced
ids exist) together with wire-representability side conditions, including
that no emitted record can alias a magic marker: peer ids stay below
0x4200 (so the first record byte differs from the magic byte 0x42) and path
store indices do not have 0x42 as their least-significant byte. -/
def view_wf (v : View) : Prop :=
  v.time < 4294967296 ∧
  v.peers.length < 65535 ∧
  (v.peers.map (fun p => p.pid)).Nodup ∧
  (v.peers.map (fun p => p.sig)).Nodup ∧
  (∀ p ∈ v.peers, 0 < p.pid ∧ p.pid < 16896 ∧ sig_wf p.sig) ∧
  v.paths.length < 4294967295 ∧
  (v.paths.map (fun p => p.idx)).Nodup ∧
  (v.paths.map (fun p => (p.data, p.isCore))).Nodup ∧
  (∀ p ∈ v.paths, p.idx < 4294967296 ∧ p.idx % 256 ≠ 66 ∧ p.isCore < 256 ∧
     p.data.length < 65536 ∧ ∀ x ∈ p.data, x < 256) ∧
  v.pfxs.length < 4294967295 ∧
  (v.pfxs.map (fun e => e.pfx)).Nodup ∧
  (∀ e ∈ v.pfxs,
     ip_wf e.pfx.addr ∧ e.pfx.maskLen < 256 ∧
     e.peers.length < 65535 ∧
     (e.peers.map (fun q => q.pid)).Nodup ∧
     (e.active = true ↔ ∃ q ∈ e.peers, q.active = true) ∧
     (∀ q ∈ e.peers, q.active = true →
        (∃ p ∈ v.peers, p.pid = q.pid ∧ p.active = true) ∧
        (∃ sp ∈ v.paths, sp.idx = q.pathIdx)))

instance ip_wf_decidable : (a : IPAddr) → Decidable (ip_wf a)
  | .v4 b => inferInstanceAs (Decidable (b.length = 4 ∧ ∀ x ∈ b, x < 256))
  | .v6 b => inferInstanceAs (Decidable (b.length = 16 ∧ ∀ x ∈ b, x < 256))

instance sig_wf_decidable (s : PeerSig) : Decidable (sig_wf s) := by
  unfold sig_wf
  infer_instance

instance view_wf_decidable (v : View) : Decidable (view_wf v) := by
  unfold view_wf
  infer_instance

/-- First peer record with the given id. -/
def peer_entry_lookup (v : View) (pid : Nat) : Option PeerRec :=
  v.peers.find? (fun p => decide (p.pid = pid))

/-- First store path with the given index. -/
def path_entry_lookup (v : View) (idx : Nat) : Option StorePath :=
  v.paths.find? (fun p => decide (p.idx = idx))

/-- Signatures of the active peers of a view. -/
def View.activeSigs (v : View) : List PeerSig :=
  (v.peers.filter (fun p => p.active)).map (fun p => p.sig)

/-- Active prefixes of a view. -/
def View.activePfxs (v : View) : List Pfx :=
  (v.pfxs.filter (fun e => e.active)).map (fun e => e.pfx)

/-- Resolve one pfx-peer to an edge: an active pfx-peer is resolved through
the view's peer table and path store to (prefix, peer signature, AS-path
encoding, core flag); inactive pfx-peers resolve to nothing. -/
def edge_resolve (v : View) (px : Pfx) (q : PfxPeerRec) :
    Option (Pfx × PeerSig × List Nat × Nat) :=
  if q.active then
    match peer_entry_lookup v q.pid, path_entry_lookup v q.pathIdx with
    | some p, some sp => some (px, p.sig, sp.data, sp.isCore)
    | _, _ => none
  else none

/-- Active pfx-peer edges of a view, with the peer id resolved to its
signature and the path id resolved to its (encoding, core) pair. -/
def View.activeEdges (v : View) : List (Pfx × PeerSig × List Nat × Nat) :=
  v.pfxs.flatMap (fun e => e.peers.filterMap (edge_resolve v e.pfx))

/-- Equivalence of two views up to id renumbering, restricted to active
content: same time, same set of active peer signatures, same set of active
prefixes, same set of active pfx-peer edges (with equal AS-path encodings
and core flags). -/
def view_equiv_active (a b : View) : Prop :=
  a.time = b.time ∧
  (∀ s, s ∈ a.activeSigs ↔ s ∈ b.activeSigs) ∧
  (∀ p, p ∈ a.activePfxs ↔ p ∈ b.activePfxs) ∧
  (∀ e, e ∈ a.activeEdges ↔ e ∈ b.activeEdges)

/-- All peers and all pfx-peers of a view are active (what the decoder
guarantees for everything it inserts). -/
def view_all_active (v : View) : Prop :=
  (∀ p ∈ v.peers, p.active = true) ∧
  (∀ e ∈ v.pfxs, ∀ q ∈ e.peers, q.active = true)

/-! ## View-sender consumer (`bvc_viewsender.c`) -/

/-- Default full-feed thresholds (source lines 55–56). -/
def FILTER_FF_V4CNT_DEFAULT : Nat := 400000

def FILTER_FF_V6CNT_DEFAULT : Nat := 10000

/-- Default sync cadence (source line 53). -/
def SECONDS_BETWEEN_SYNC : Nat := 3600

/-- Filter granularity (`bgpview_io_filter_type_t`). -/
inductive FilterType where
  | peer
  | pfx
  | pfxPeer
deriving DecidableEq

/-- The view-sender's full-feed filter (`filter_ff`, source lines 410–421):
keeps every prefix, and keeps a peer (at peer or pfx-peer granularity) iff
its active IPv4 prefix count reaches the v4 threshold OR its active IPv6
prefix count reaches the v6 threshold. -/
def filter_ff (ty : FilterType) (v4cnt v6cnt minV4 minV6 : Nat) : Bool :=
  decide (ty = FilterType.pfx) ||
    (decide (minV4 ≤ v4cnt) || decide (minV6 ≤ v6cnt))

/-- Sync-aligned time: `(view_time / sync_interval) * sync_interval`
(source lines 531–532). -/
def sync_time (viewTime syncInterval : Nat) : Nat :=
  viewTime / syncInterval * syncInterval

/-- What the view-sender does with one view. -/
inductive SendDecision where
  | sync
  | diff
  | skip
deriving DecidableEq

/-- The Kafka branch of `bvc_viewsender_process_view` (source lines
526–551): sync frame when the parent view is absent or the time is
sync-aligned — except that an out-of-step start (no parent, unaligned time)
skips publication; otherwise a diff frame against the parent. -/
def viewsender_decision (parentExists : Bool) (viewTime syncInterval : Nat) :
    SendDecision :=
  if parentExists = false ∨ viewTime = sync_time viewTime syncInterval then
    if viewTime ≠ sync_time viewTime syncInterval then SendDecision.skip
    else SendDecision.sync
  else SendDecision.diff

/-- Character transformation of `graphite_safe` (source lines 119–136,
identically in `bvc_perfmonitor.c`): the two ifs run in sequence on each
character. Characters are octets: 46 is a dot, 42 is an asterisk, 95 an
underscore, 45 a hyphen. -/
def graphite_safe_char (c : Nat) : Nat :=
  let c1 := if c = 46 then 95 else c
  if c1 = 42 then 45 else c1

/-- In-place character scan of `graphite_safe` over the bytes before the
terminating NUL, modelled functionally. -/
def graphite_safe (s : List Nat) : List Nat := s.map graphite_safe_char

/-! ## Kafka shutdown drain loop (`bgpview_io_kafka_destroy`, source lines
371–380) -/

/-- Poll timeout of each drain iteration, in milliseconds. -/
def DRAIN_POLL_TIMEOUT_MS : Nat := 5000

/-- Initial value of `drain_wait_cnt`. -/
def DRAIN_WAIT_CNT_INIT : Nat := 12

/-- The drain loop: `while (rd_kafka_outq_len(..) > 0 && drain_wait_cnt > 0)`.
`outqLen i` is the queue length observed at the i-th check (an arbitrary
environment); returns the number of `rd_kafka_poll` calls executed. -/
def drain_go (outqLen : Nat → Nat) : Nat → Nat → Nat
  | 0, _ => 0
  | cnt + 1, i => if 0 < outqLen i then drain_go outqLen cnt (i + 1) + 1 else 0

/-- Number of poll iterations the destroy-time drain loop executes. -/
def kafka_drain_iters (outqLen : Nat → Nat) : Nat :=
  drain_go outqLen DRAIN_WAIT_CNT_INIT 0

/-! ## Concrete data used by counterexamples and witnesses -/

/-- A small well-formed peer signature. -/
def sig_rrc : PeerSig := ⟨[114, 114, 99, 48, 48], .v4 [10, 0, 0, 1], 65001⟩

/-- A view whose only peer is INACTIVE (for the C1 counterexample). -/
def view_c1_cex : View := ⟨5, [⟨1, sig_rrc, false⟩], [], []⟩

/-- The encoding of `view_c1_cex` (total since there is no filter). -/
def stream_c1_cex : List Nat :=
  (bgpview_io_file_write view_c1_cex none).getD []

/-- A small fully-active well-formed view (for the C1 witness): one active
peer, one stored path, one active prefix with one active pfx-peer. -/
def view_c1_wit : View :=
  ⟨3600,
   [⟨1, sig_rrc, true⟩],
   [⟨7, 1, [1, 2, 0, 253, 1]⟩],
   [⟨⟨.v4 [10, 1, 0, 0], 16⟩, true, [⟨1, 7, true⟩]⟩]⟩

/-- A stream that is valid through the peer section (one peer) but whose
path section declares 10 path bytes and provides only 3: the decoder fails
at the checked `wandio_read` of the path data (source lines 570–574), after
having set the view's time and added and activated the peer. -/
def stream_c2 : List Nat :=
  magicBytes VIEW_START_MAGIC ++ bytesBE32 100 ++
    write_peer_rec ⟨1, sig_rrc, true⟩ ++
    magicBytes VIEW_PEER_END_MAGIC ++ bytesBE16 1 ++
    bytesHost32 0 ++ [0] ++ bytesHost16 10 ++ [1, 2, 3]

/-- A stream with an empty peer section whose cross-check count claims 5
peers, and with no end-of-view magic: both violations of the claim C3 that
the release-build decoder accepts. -/
def stream_c3 : List Nat :=
  magicBytes VIEW_START_MAGIC ++ bytesBE32 9 ++
    magicBytes VIEW_PEER_END_MAGIC ++ bytesBE16 5 ++
    magicBytes VIEW_PATH_END_MAGIC ++ bytesBE32 0 ++
    magicBytes VIEW_PFX_END_MAGIC ++ bytesBE32 0

/-- A filter that keeps all peers and prefixes but drops every pfx-peer
(for C4). -/
def drop_all_pfx_peers : WriteFilter :=
  ⟨fun _ => 1, fun _ => 1, fun _ _ => 0⟩

/-- A view with one active prefix whose single pfx-peer the C4 filter
drops. -/
def view_c4 : View :=
  ⟨10,
   [⟨1, sig_rrc, true⟩],
   [⟨0, 1, [1, 1, 0, 253, 1]⟩],
   [⟨⟨.v4 [192, 0, 2, 0], 24⟩, true, [⟨1, 0, true⟩]⟩]⟩

/-- A well-formed minimal stream of an empty view with time 7 (for the C10
witness). -/
def stream_empty_ok : List Nat :=
  magicBytes VIEW_START_MAGIC ++ bytesBE32 7 ++
    magicBytes VIEW_PEER_END_MAGIC ++ bytesBE16 0 ++
    magicBytes VIEW_PATH_END_MAGIC ++ bytesBE32 0 ++
    magicBytes VIEW_PFX_END_MAGIC ++ bytesBE32 0 ++
    magicBytes VIEW_END_MAGIC

/-! # Theorems -/

/-! ## View-sender sync/diff cadence (C6) -/

theorem sync_time_eq_iff (t si : Nat) : t = sync_time t si ↔ t % si = 0 := by
  unfold sync_time
  constructor
  · intro h
    conv_lhs => rw [h]
    exact Nat.mul_mod_left (t / si) si
  · intro h
    have h2 := Nat.div_add_mod t si
    rw [h, Nat.add_zero, Nat.mul_comm] at h2
    exact h2.symm

/-- C6: the Kafka view-sender emits a sync frame exactly when
`view.time mod sync_interval = 0`; a diff frame exactly when a parent view
exists and the time is not sync-aligned; and skips publication exactly when
no parent view exists and the time is not sync-aligned. -/
theorem viewsender_sync_diff_skip (pe : Bool) (t si : Nat) :
    (viewsender_decision pe t si = SendDecision.sync ↔ t % si = 0) ∧
    (viewsender_decision pe t si = SendDecision.diff ↔
      pe = true ∧ t % si ≠ 0) ∧
    (viewsender_decision pe t si = SendDecision.skip ↔
      pe = false ∧ t % si ≠ 0) := by
  by_cases hmod : t % si = 0
  · have hts : t = sync_time t si := (sync_time_eq_iff t si).mpr hmod
    unfold viewsender_decision
    rw [if_pos (Or.inr hts), if_neg (fun hh => hh hts)]
    simp [hmod]
  · have hts : ¬t = sync_time t si :=
      fun hh => hmod ((sync_time_eq_iff t si).mp hh)
    cases pe
    · unfold viewsender_decision
      rw [if_pos (Or.inl rfl), if_pos hts]
      simp [hmod]
    · unfold viewsender_decision
      rw [if_neg (by simp [hts])]
      simp [hmod]

/-! ## View-sender full-feed filter (C7) -/

/-- C7 counterexample: a peer with 0 active IPv4 prefixes (fewer than the
default v4 threshold 400000) but a full IPv6 feed is KEPT by `filter_ff`,
refuting the claim that every peer below the v4 threshold is dropped. -/
theorem filter_ff_claim_cex :
    filter_ff FilterType.peer 0 FILTER_FF_V6CNT_DEFAULT
      FILTER_FF_V4CNT_DEFAULT FILTER_FF_V6CNT_DEFAULT = true ∧
    (0 : Nat) < FILTER_FF_V4CNT_DEFAULT := by decide

/-- C7 amended: the full-feed filter drops a peer iff it is below BOTH
thresholds — fewer than `filter_ff_v4cnt` active IPv4 prefixes AND fewer
than `filter_ff_v6cnt` active IPv6 prefixes (defaults 400000 and 10000);
prefixes themselves are always kept. -/
theorem filter_ff_amended (v4 v6 m4 m6 : Nat) :
    (filter_ff FilterType.peer v4 v6 m4 m6 = false ↔ v4 < m4 ∧ v6 < m6) ∧
    (filter_ff FilterType.pfxPeer v4 v6 m4 m6 =
      filter_ff FilterType.peer v4 v6 m4 m6) ∧
    filter_ff FilterType.pfx v4 v6 m4 m6 = true ∧
    FILTER_FF_V4CNT_DEFAULT = 400000 ∧ FILTER_FF_V6CNT_DEFAULT = 10000 := by
  refine ⟨?_, rfl, rfl, rfl, rfl⟩
  simp only [filter_ff, Bool.or_eq_false_iff, decide_eq_false_iff_not]
  constructor
  · rintro ⟨-, h4, h6⟩
    omega
  · rintro ⟨h4, h6⟩
    refine ⟨by simp, by omega, by omega⟩

/-! ## The graphite-safe transformation (C8) -/

theorem graphite_safe_char_eq (c : Nat) :
    graphite_safe_char c = if c = 46 then 95 else if c = 42 then 45 else c := by
  unfold graphite_safe_char
  by_cases h46 : c = 46 <;> simp [h46]

/-- C8: `graphite_safe` replaces every dot (46) by an underscore (95) and
every asterisk (42) by a hyphen (45), leaves every other character and the
length unchanged, and is the identity on strings containing neither. -/
theorem graphite_safe_spec (s : List Nat) :
    (graphite_safe s).length = s.length ∧
    graphite_safe s =
      s.map (fun c => if c = 46 then 95 else if c = 42 then 45 else c) ∧
    (46 ∉ s → 42 ∉ s → graphite_safe s = s) := by
  refine ⟨by simp [graphite_safe], by simp [graphite_safe, graphite_safe_char_eq], ?_⟩
  intro h46 h42
  induction s with
  | nil => rfl
  | cons c t ih =>
    simp only [List.mem_cons, not_or] at h46 h42
    have hc : graphite_safe_char c = c := by
      rw [graphite_safe_char_eq, if_neg (fun hh => h46.1 hh.symm),
        if_neg (fun hh => h42.1 hh.symm)]
    have ht := ih h46.2 h42.2
    simp only [graphite_safe, List.map_cons] at ht ⊢
    rw [hc, ht]

theorem graphite_safe_spec_witness :
    46 ∉ ([104, 105] : List Nat) ∧ 42 ∉ ([104, 105] : List Nat) ∧
    graphite_safe [104, 105] = [104, 105] :=
  ⟨by decide, by decide,
   (graphite_safe_spec [104, 105]).2.2 (by decide) (by decide)⟩

/-! ## Kafka shutdown drain bound (C9) -/

theorem drain_go_le (q : Nat → Nat) : ∀ cnt i, drain_go q cnt i ≤ cnt := by
  intro cnt
  induction cnt with
  | zero => intro i; simp [drain_go]
  | succ n ih =>
    intro i
    unfold drain_go
    split
    · exact Nat.succ_le_succ (ih (i + 1))
    · exact Nat.zero_le _

/-- C9: the destroy-time outbound-queue drain loop runs at most 12
iterations regardless of the observed queue lengths, each polling with a
5000 ms timeout, so the drain time is bounded by 12 × 5 s = 60 s. -/
theorem kafka_drain_bounded (outqLen : Nat → Nat) :
    kafka_drain_iters outqLen ≤ DRAIN_WAIT_CNT_INIT ∧
    DRAIN_WAIT_CNT_INIT = 12 ∧ DRAIN_POLL_TIMEOUT_MS = 5000 ∧
    DRAIN_POLL_TIMEOUT_MS * kafka_drain_iters outqLen ≤ 60000 := by
  have h : kafka_drain_iters outqLen ≤ 12 :=
    drain_go_le outqLen DRAIN_WAIT_CNT_INIT 0
  refine ⟨h, rfl, rfl, ?_⟩
  unfold DRAIN_POLL_TIMEOUT_MS
  omega

/-! ## Decoder failure mutates the caller's view (C2) -/

/-- C2: on `stream_c2` (path data truncated at a read the C code checks)
the decoder returns an error, yet the caller's view — empty before the
call — has had its time set to 100 and one peer added and activated. -/
theorem file_read_mutates_on_err :
    (bgpview_io_file_read stream_c2 empty_view none none none).1 =
      ReadRes.err ∧
    (bgpview_io_file_read stream_c2 empty_view none none none).2.1 =
      ⟨100, [⟨1, sig_rrc, true⟩], [], []⟩ ∧
    (bgpview_io_file_read stream_c2 empty_view none none none).2.1 ≠
      empty_view := by decide

/-! ## Cross-check and end-magic failures are not errors (C3) -/

/-- C3: `stream_c3` carries a peers-sent cross-check count of 5 for an
empty peer section and has no end-of-view magic, yet the (release-build)
decoder consumes it fully and reports a successfully decoded view
instead of an error. -/
theorem file_read_accepts_bad_counts :
    (bgpview_io_file_read stream_c3 empty_view none none none).1 =
      ReadRes.okv ∧
    (bgpview_io_file_read stream_c3 empty_view none none none).2.2 = [] ∧
    (∀ s : List Nat, s ≠ [] →
      (bgpview_io_file_read s empty_view none none none).1 = ReadRes.err ∨
      (check_magic VIEW_START_MAGIC s).1 = true) := by
  refine ⟨by decide, by decide, ?_⟩
  intro s hne
  by_cases hm : (check_magic VIEW_START_MAGIC s).1 = true
  · exact Or.inr hm
  · left
    have hlen : ¬s.length = 0 := by
      cases s with
      | nil => exact absurd rfl hne
      | cons a t => simp
    unfold bgpview_io_file_read
    rw [if_neg hlen]
    rcases hcm : check_magic VIEW_START_MAGIC s with ⟨b, r⟩
    have hb : b = false := by
      rcases b with _ | _
      · rfl
      · exact absurd (by rw [hcm]) hm
    subst hb
    rfl

theorem file_read_accepts_bad_counts_witness :
    ([1] : List Nat) ≠ [] ∧
    ((bgpview_io_file_read [1] empty_view none none none).1 = ReadRes.err ∨
      (check_magic VIEW_START_MAGIC [1]).1 = true) :=
  ⟨by decide, (file_read_accepts_bad_counts).2.2 [1] (by decide)⟩

/-! ## Filtered-out prefixes still contribute header bytes (C4) -/

/-- C4: writing `view_c4` with a filter that drops every pfx-peer leaves
the prefix's 6 header bytes (ip_len, ip, mask_len) in the prefix section,
followed directly by the end-of-prefixes magic and a prefix count of 0:
the prefix is uncounted but not byte-free, corrupting the framing. -/
theorem write_pfxs_emits_header_for_empty_pfx :
    write_pfxs view_c4 (some drop_all_pfx_peers) =
      some (write_ip (IPAddr.v4 [192, 0, 2, 0]) ++ [24] ++
        magicBytes VIEW_PFX_END_MAGIC ++ bytesBE32 0) ∧
    write_ip (IPAddr.v4 [192, 0, 2, 0]) ++ ([24] : List Nat) ≠ [] := by decide

/-! ## Byte order of wire fields (C5) -/

/-- C5 counterexample: the `path_idx` field of a pfx-peer record (and of a
path record) with index 1 is written least-significant byte first, not in
big-endian byte order as claimed. -/
theorem path_idx_not_big_endian :
    write_pfx_peer_rec ⟨1, 1, true⟩ = [0, 1, 1, 0, 0, 0] ∧
    bytesBE16 1 ++ bytesBE32 1 = [0, 1, 0, 0, 0, 1] ∧
    write_pfx_peer_rec ⟨1, 1, true⟩ ≠ bytesBE16 1 ++ bytesBE32 1 ∧
    write_path_rec ⟨1, 0, []⟩ = [1, 0, 0, 0, 0, 0, 0] ∧
    (write_path_rec ⟨1, 0, []⟩).take 4 ≠ bytesBE32 1 := by decide

theorem bytesBE16_eq_beSpec (n : Nat) : bytesBE16 n = beSpec 2 n := by
  simp only [beSpec, bytesBE16, List.range_succ, List.range_zero,
    List.map_append, List.map_cons, List.map_nil, List.nil_append]
  norm_num

theorem bytesBE32_eq_beSpec (n : Nat) : bytesBE32 n = beSpec 4 n := by
  simp only [beSpec, bytesBE32, List.range_succ, List.range_zero,
    List.map_append, List.map_cons, List.map_nil, List.nil_append]
  norm_num

theorem bytesHost16_eq_rev (n : Nat) : bytesHost16 n = (beSpec 2 n).reverse := by
  rw [← bytesBE16_eq_beSpec]
  rfl

theorem bytesHost32_eq_rev (n : Nat) : bytesHost32 n = (beSpec 4 n).reverse := by
  rw [← bytesBE32_eq_beSpec]
  rfl

/-- C5 amended: every multi-byte integer field of the view file is written
big-endian (most-significant base-256 digit first) EXCEPT the AS-path
`path_data` bytes, the `path_idx` fields of both the path section and the
pfx-peer records, and the `path_len` field, which are written in host byte
order — byte-reversed (little-endian) on the reference hosts — and host
order genuinely differs from big-endian. -/
theorem wire_fields_byte_order :
    (∀ n, bytesBE16 n = beSpec 2 n) ∧
    (∀ n, bytesBE32 n = beSpec 4 n) ∧
    (∀ m, magicBytes m = beSpec 4 VIEW_MAGIC ++ beSpec 4 m) ∧
    (∀ p : PeerRec, write_peer_rec p =
      beSpec 2 p.pid ++ (p.sig.collector.length % 256) ::
        (p.sig.collector ++ (write_ip p.sig.ip ++ beSpec 4 p.sig.asn))) ∧
    (∀ sp : StorePath, write_path_rec sp =
      (beSpec 4 sp.idx).reverse ++ (sp.isCore % 256) ::
        ((beSpec 2 sp.data.length).reverse ++ sp.data)) ∧
    (∀ q : PfxPeerRec, write_pfx_peer_rec q =
      beSpec 2 q.pid ++ (beSpec 4 q.pathIdx).reverse) ∧
    (beSpec 4 1).reverse ≠ beSpec 4 1 := by
  refine ⟨bytesBE16_eq_beSpec, bytesBE32_eq_beSpec, ?_, ?_, ?_, ?_, by decide⟩
  · intro m
    rw [magicBytes, bytesBE32_eq_beSpec, bytesBE32_eq_beSpec]
  · intro p
    rw [write_peer_rec, bytesBE16_eq_beSpec, bytesBE32_eq_beSpec]
  · intro sp
    rw [write_path_rec, bytesHost32_eq_rev, bytesHost16_eq_rev]
  · intro q
    rw [write_pfx_peer_rec, bytesBE16_eq_beSpec, bytesHost32_eq_rev]

/-! ## Everything the decoder inserts is activated (C10) -/

theorem peers_map_activate (l : List PeerRec) (pid : Nat)
    (h : ∀ p ∈ l, p.active = true ∨ p.pid = pid) :
    ∀ p ∈ l.map (fun p =>
      if p.pid = pid then { p with active := true } else p),
      p.active = true := by
  intro q hq
  simp only [List.mem_map] at hq
  obtain ⟨q0, hq0, hqe⟩ := hq
  subst hqe
  by_cases hh : q0.pid = pid
  · simp [hh]
  · rcases h q0 hq0 with ha | hb
    · simp [hh, ha]
    · exact absurd hb hh

theorem pfx_peers_map_activate (l : List PfxPeerRec) (pid : Nat)
    (h : ∀ q ∈ l, q.active = true ∨ q.pid = pid) :
    ∀ q ∈ l.map (fun q =>
      if q.pid = pid then { q with active := true } else q),
      q.active = true := by
  intro q hq
  simp only [List.mem_map] at hq
  obtain ⟨q0, hq0, hqe⟩ := hq
  subst hqe
  by_cases hh : q0.pid = pid
  · simp [hh]
  · rcases h q0 hq0 with ha | hb
    · simp [hh, ha]
    · exact absurd hb hh

theorem all_active_peer_step (v : View) (sig : PeerSig)
    (h : view_all_active v) :
    view_all_active
      (bgpview_activate_peer (bgpview_add_peer v sig).2
        (bgpview_add_peer v sig).1) := by
  obtain ⟨hp, hx⟩ := h
  unfold bgpview_add_peer
  cases hf : v.peers.find? (fun p => decide (p.sig = sig)) with
  | some p =>
    exact ⟨peers_map_activate _ _ (fun q hq => Or.inl (hp q hq)), hx⟩
  | none =>
    refine ⟨?_, hx⟩
    apply peers_map_activate
    intro q hq
    rcases List.mem_append.mp hq with h1 | h2
    · exact Or.inl (hp q h1)
    · rw [List.mem_singleton] at h2
      subst h2
      exact Or.inr rfl

theorem all_active_store_insert (v : View) (data : List Nat) (core : Nat)
    (h : view_all_active v) :
    view_all_active (bgpview_store_insert v data core).2 := by
  obtain ⟨hp, hx⟩ := h
  unfold bgpview_store_insert
  cases hf : v.paths.find? (fun p => decide (p.data = data ∧ p.isCore = core)) with
  | some p => exact ⟨hp, hx⟩
  | none => exact ⟨hp, hx⟩

theorem upsert_shape (l : List PfxPeerRec) (pid pathIdx : Nat) :
    ∀ q ∈ pfx_peer_upsert l pid pathIdx, q ∈ l ∨ q.pid = pid := by
  intro q hq
  unfold pfx_peer_upsert at hq
  split at hq
  · simp only [List.mem_map] at hq
    obtain ⟨q0, hq0, hqe⟩ := hq
    subst hqe
    by_cases hh : q0.pid = pid
    · rw [if_pos hh]
      exact Or.inr rfl
    · rw [if_neg hh]
      exact Or.inl hq0
  · rcases List.mem_append.mp hq with h1 | h2
    · exact Or.inl h1
    · rw [List.mem_singleton] at h2
      subst h2
      exact Or.inr rfl

theorem add_pfx_peer_entry_shape (v : View) (pfx : Pfx) (pid pathIdx : Nat) :
    ∀ e ∈ (bgpview_add_pfx_peer v pfx pid pathIdx).pfxs,
      e ∈ v.pfxs ∨
      (e.pfx = pfx ∧
        ∀ q ∈ e.peers, (∃ e0 ∈ v.pfxs, q ∈ e0.peers) ∨ q.pid = pid) := by
  intro e he
  unfold bgpview_add_pfx_peer at he
  split at he
  · simp only [List.mem_map] at he
    obtain ⟨e0, he0, hee⟩ := he
    by_cases hpfx : e0.pfx = pfx
    · rw [if_pos hpfx] at hee
      subst hee
      right
      refine ⟨hpfx, ?_⟩
      intro q hq
      rcases upsert_shape e0.peers pid pathIdx q hq with h1 | h2
      · exact Or.inl ⟨e0, he0, h1⟩
      · exact Or.inr h2
    · rw [if_neg hpfx] at hee
      subst hee
      exact Or.inl he0
  · rcases List.mem_append.mp he with h1 | h2
    · exact Or.inl h1
    · rw [List.mem_singleton] at h2
      subst h2
      right
      refine ⟨rfl, ?_⟩
      intro q hq
      rw [List.mem_singleton] at hq
      subst hq
      exact Or.inr rfl

theorem add_pfx_peer_peers_eq (v : View) (pfx : Pfx) (pid pathIdx : Nat) :
    (bgpview_add_pfx_peer v pfx pid pathIdx).peers = v.peers := by
  unfold bgpview_add_pfx_peer
  split <;> rfl

theorem pfx_activate_pfxs_eq (v : View) (pfx : Pfx) (pid : Nat) :
    (bgpview_pfx_activate_peer v pfx pid).pfxs =
      v.pfxs.map (fun e =>
        if e.pfx = pfx then
          { e with
            active := true,
            peers := e.peers.map (fun q =>
              if q.pid = pid then { q with active := true } else q) }
        else e) := rfl

theorem pfx_activate_peers_eq (v : View) (pfx : Pfx) (pid : Nat) :
    (bgpview_pfx_activate_peer v pfx pid).peers =
      v.peers.map (fun p =>
        if p.pid = pid then { p with active := true } else p) := rfl

theorem all_active_pp_step (v : View) (pfx : Pfx) (pid pathIdx : Nat)
    (h : view_all_active v) :
    view_all_active
      (bgpview_pfx_activate_peer (bgpview_add_pfx_peer v pfx pid pathIdx)
        pfx pid) := by
  obtain ⟨hp, hx⟩ := h
  constructor
  · intro q hq
    rw [pfx_activate_peers_eq, add_pfx_peer_peers_eq] at hq
    exact peers_map_activate _ _ (fun p hp2 => Or.inl (hp p hp2)) q hq
  · intro e he q hq
    rw [pfx_activate_pfxs_eq] at he
    simp only [List.mem_map] at he
    obtain ⟨e1, he1, hee⟩ := he
    have hbase : ∀ q0 ∈ e1.peers, q0.active = true ∨ q0.pid = pid := by
      intro q0 hq0
      rcases add_pfx_peer_entry_shape v pfx pid pathIdx e1 he1 with h1 | h2
      · exact Or.inl (hx e1 h1 q0 hq0)
      · rcases h2.2 q0 hq0 with ⟨e0, he0, hq00⟩ | hpid
        · exact Or.inl (hx e0 he0 q0 hq00)
        · exact Or.inr hpid
    by_cases hpfx : e1.pfx = pfx
    · rw [if_pos hpfx] at hee
      subst hee
      exact pfx_peers_map_activate _ _ hbase q hq
    · rw [if_neg hpfx] at hee
      subst hee
      rcases add_pfx_peer_entry_shape v pfx pid pathIdx e1 he1 with h1 | h2
      · exact hx e1 h1 q hq
      · exact absurd h2.1 hpfx

theorem read_peers_go_all_active (pcb : Option (PeerSig → Int))
    (fuel : Nat) :
    ∀ s v im, view_all_active v →
      view_all_active (read_peers_go pcb fuel s v im).2 := by
  induction fuel with
  | zero =>
    intro s v im h
    unfold read_peers_go read_peers_fin
    cases readU16BE s with
    | none => exact h
    | some x => exact h
  | succ n ih =>
    intro s v im h
    unfold read_peers_go read_peers_fin
    split
    · split
      · exact h
      · exact h
    · split
      · exact h
      · split
        · exact h
        · split
          · exact h
          · split
            · exact h
            · split
              · exact h
              · dsimp only
                split
                · exact h
                · split
                  · exact ih _ _ _ h
                  · exact ih _ _ _ (all_active_peer_step _ _ h)

theorem read_paths_go_all_active (fuel : Nat) :
    ∀ s v pm, view_all_active v →
      view_all_active (read_paths_go fuel s v pm).2 := by
  induction fuel with
  | zero =>
    intro s v pm h
    unfold read_paths_go read_paths_fin
    cases readU32BE s with
    | none => exact h
    | some x => exact h
  | succ n ih =>
    intro s v pm h
    unfold read_paths_go read_paths_fin
    split
    · split
      · exact h
      · exact h
    · split
      · exact h
      · split
        · exact h
        · split
          · exact h
          · split
            · exact h
            · dsimp only
              exact ih _ _ _ (all_active_store_insert _ _ _ h)

theorem read_pfx_peers_go_all_active (ppcb : Option (List Nat × Nat → Int))
    (pfx : Pfx) (skip : Bool) (pm idm : List Nat) (fuel : Nat) :
    ∀ s v, view_all_active v →
      view_all_active (read_pfx_peers_go ppcb pfx skip pm idm fuel s v).2 := by
  induction fuel with
  | zero =>
    intro s v h
    unfold read_pfx_peers_go
    cases readU16BE s with
    | none => exact h
    | some x => exact h
  | succ n ih =>
    intro s v h
    unfold read_pfx_peers_go
    split
    · split
      · exact h
      · exact h
    · split
      · exact h
      · split
        · exact h
        · split
          · exact ih _ _ h
          · dsimp only
            split
            · exact h
            · split
              · exact ih _ _ h
              · exact ih _ _ (all_active_pp_step _ _ _ _ h)

theorem read_pfx_peers_go_all_active_eq
    (ppcb : Option (List Nat × Nat → Int)) (pfx : Pfx) (skip : Bool)
    (pm idm : List Nat) (fuel : Nat) (s : List Nat) (v : View)
    (o : Option (List Nat)) (v1 : View)
    (heq : read_pfx_peers_go ppcb pfx skip pm idm fuel s v = (o, v1))
    (h : view_all_active v) : view_all_active v1 := by
  have h2 := read_pfx_peers_go_all_active ppcb pfx skip pm idm fuel s v h
  rw [heq] at h2
  exact h2

theorem read_pfxs_go_all_active (xcb : Option (Pfx → Int))
    (ppcb : Option (List Nat × Nat → Int)) (pm idm : List Nat)
    (fuel : Nat) :
    ∀ s v, view_all_active v →
      view_all_active (read_pfxs_go xcb ppcb pm idm fuel s v).2 := by
  induction fuel with
  | zero =>
    intro s v h
    unfold read_pfxs_go
    cases readU32BE s with
    | none => exact h
    | some x => exact h
  | succ n ih =>
    intro s v h
    unfold read_pfxs_go
    split
    · split
      · exact h
      · exact h
    · split
      · exact h
      · split
        · exact h
        · dsimp only
          repeat' split
          all_goals
            first
            | exact h
            | (rename_i v1 heq
               exact read_pfx_peers_go_all_active_eq _ _ _ _ _ _ _ _ _ _
                 heq h)
            | (rename_i r3 v1 heq
               exact ih _ _
                 (read_pfx_peers_go_all_active_eq _ _ _ _ _ _ _ _ _ _
                   heq h))

theorem empty_view_all_active : view_all_active empty_view := by
  constructor
  · intro p hp
    exact absurd hp (List.not_mem_nil p)
  · intro e he
    exact absurd he (List.not_mem_nil e)

/-- C10: every peer and pfx-peer the binary decoder inserts into a fresh
view is immediately activated: after a successful `bgpview_io_file_read`
into a fresh view — for any input stream and any filter callbacks — every
peer and every pfx-peer of the resulting view is active. -/
theorem read_peers_all_active_eq (pcb : Option (PeerSig → Int))
    (s : List Nat) (v : View) (o : Option (List Nat × List Nat))
    (vv : View) (heq : read_peers pcb s v = (o, vv))
    (h : view_all_active v) : view_all_active vv := by
  have h2 : view_all_active (read_peers pcb s v).2 :=
    read_peers_go_all_active pcb 65535 s v [] h
  rw [heq] at h2
  exact h2

theorem read_paths_all_active_eq (s : List Nat) (v : View)
    (o : Option (List Nat × List Nat)) (vv : View)
    (heq : read_paths s v = (o, vv)) (h : view_all_active v) :
    view_all_active vv := by
  have h2 : view_all_active (read_paths s v).2 :=
    read_paths_go_all_active 4294967295 s v [] h
  rw [heq] at h2
  exact h2

theorem read_pfxs_go_all_active_eq (xcb : Option (Pfx → Int))
    (ppcb : Option (List Nat × Nat → Int)) (pm idm : List Nat)
    (fuel : Nat) (s : List Nat) (v : View) (o : Option (List Nat))
    (vv : View) (heq : read_pfxs_go xcb ppcb pm idm fuel s v = (o, vv))
    (h : view_all_active v) : view_all_active vv := by
  have h2 := read_pfxs_go_all_active xcb ppcb pm idm fuel s v h
  rw [heq] at h2
  exact h2

/-- C10: every peer and pfx-peer the binary decoder inserts into a fresh
view is immediately activated: after a successful `bgpview_io_file_read`
into a fresh view — for any input stream and any filter callbacks — every
peer and every pfx-peer of the resulting view is active. -/
theorem decode_inserts_are_active (s : List Nat)
    (pcb : Option (PeerSig → Int)) (xcb : Option (Pfx → Int))
    (ppcb : Option (List Nat × Nat → Int)) (v2 : View) (rest : List Nat)
    (h : bgpview_io_file_read s empty_view pcb xcb ppcb =
      (ReadRes.okv, v2, rest)) :
    view_all_active v2 := by
  have h0 : view_all_active empty_view := empty_view_all_active
  unfold bgpview_io_file_read at h
  by_cases hlen : s.length = 0
  · rw [if_pos hlen] at h
    simp at h
  · rw [if_neg hlen] at h
    rcases hm : check_magic VIEW_START_MAGIC s with ⟨b, r1⟩
    rw [hm] at h
    cases b
    · simp at h
    · dsimp only at h
      cases ht : readU32BE r1 with
      | none =>
        rw [ht] at h
        simp at h
      | some tr =>
        rw [ht] at h
        rcases tr with ⟨t, r2⟩
        dsimp only at h
        have h1 : view_all_active { empty_view with time := t } := h0
        rcases hprs : read_peers pcb r2 { empty_view with time := t }
          with ⟨o2, vv2⟩
        rw [hprs] at h
        have hvv2 : view_all_active vv2 :=
          read_peers_all_active_eq pcb r2 _ o2 vv2 hprs h1
        cases o2 with
        | none => simp at h
        | some p2 =>
          rcases p2 with ⟨idm, r3⟩
          dsimp only at h
          rcases hpth : read_paths r3 vv2 with ⟨o3, vv3⟩
          rw [hpth] at h
          have hvv3 : view_all_active vv3 :=
            read_paths_all_active_eq r3 vv2 o3 vv3 hpth hvv2
          cases o3 with
          | none => simp at h
          | some p3 =>
            rcases p3 with ⟨pm, r4⟩
            dsimp only at h
            rcases hpfx : read_pfxs_go xcb ppcb pm idm 4294967295 r4 vv3
              with ⟨o4, vv4⟩
            rw [hpfx] at h
            have hvv4 : view_all_active vv4 :=
              read_pfxs_go_all_active_eq xcb ppcb pm idm 4294967295 r4 vv3
                o4 vv4 hpfx hvv3
            cases o4 with
            | none => simp at h
            | some r5 =>
              dsimp only at h
              rcases hend : check_magic VIEW_END_MAGIC r5 with ⟨b2, r6⟩
              rw [hend] at h
              cases b2
              · simp only [Prod.mk.injEq] at h
                rw [← h.2.1]
                exact hvv4
              · simp only [Prod.mk.injEq] at h
                rw [← h.2.1]
                exact hvv4

theorem decode_inserts_are_active_witness :
    bgpview_io_file_read stream_empty_ok empty_view none none none =
      (ReadRes.okv, { empty_view with time := 7 }, []) ∧
    view_all_active { empty_view with time := 7 } :=
  ⟨by decide,
   decode_inserts_are_active stream_empty_ok none none none
     { empty_view with time := 7 } [] (by decide)⟩

/-! ## Byte-level stepping lemmas for the round-trip (C1) -/

theorem magicBytes_length (m : Nat) : (magicBytes m).length = 8 := by
  simp [magicBytes, bytesBE32]

theorem magicBytes_cons (m : Nat) :
    magicBytes m = 66 :: 71 :: 80 :: 86 :: bytesBE32 m := rfl

theorem check_magic_hit (m : Nat) (r : List Nat) :
    check_magic m (magicBytes m ++ r) = (true, r) := by
  unfold check_magic
  rw [List.take_left' (magicBytes_length m), if_pos rfl,
    List.drop_left' (magicBytes_length m)]

theorem check_magic_miss (m b : Nat) (t : List Nat) (h : b ≠ 66) :
    check_magic m (b :: t) = (false, b :: t) := by
  unfold check_magic
  rw [if_neg]
  intro heq
  rw [magicBytes_cons, List.take_succ_cons] at heq
  exact h (List.cons.injEq .. ▸ heq).1

theorem check_magic_head (m : Nat) (s : List Nat) (b : Nat)
    (hb : s.head? = some b) (h : b ≠ 66) :
    check_magic m s = (false, s) := by
  cases s with
  | nil => simp at hb
  | cons a t =>
    rw [List.head?_cons, Option.some.injEq] at hb
    subst hb
    exact check_magic_miss m a t h

theorem readU16BE_bytesBE16 (n : Nat) (r : List Nat) (h : n < 65536) :
    readU16BE (bytesBE16 n ++ r) = some (n, r) := by
  show some (n / 256 % 256 * 256 + n % 256, r) = some (n, r)
  have he : n / 256 % 256 * 256 + n % 256 = n := by omega
  rw [he]

theorem readU32BE_bytesBE32 (n : Nat) (r : List Nat) (h : n < 4294967296) :
    readU32BE (bytesBE32 n ++ r) = some (n, r) := by
  show some
    (((n / 16777216 % 256 * 256 + n / 65536 % 256) * 256 + n / 256 % 256) *
        256 + n % 256, r) = some (n, r)
  have he : ((n / 16777216 % 256 * 256 + n / 65536 % 256) * 256 +
      n / 256 % 256) * 256 + n % 256 = n := by omega
  rw [he]

theorem readU16Host_bytesHost16 (n : Nat) (r : List Nat) (h : n < 65536) :
    readU16Host (bytesHost16 n ++ r) = some (n, r) := by
  show some (n % 256 + 256 * (n / 256 % 256), r) = some (n, r)
  have he : n % 256 + 256 * (n / 256 % 256) = n := by omega
  rw [he]

theorem readU32Host_bytesHost32 (n : Nat) (r : List Nat)
    (h : n < 4294967296) :
    readU32Host (bytesHost32 n ++ r) = some (n, r) := by
  show some
    (n % 256 + 256 * (n / 256 % 256 + 256 * (n / 65536 % 256 +
      256 * (n / 16777216 % 256))), r) = some (n, r)
  have he : n % 256 + 256 * (n / 256 % 256 + 256 * (n / 65536 % 256 +
      256 * (n / 16777216 % 256))) = n := by omega
  rw [he]

theorem readN_append (xs r : List Nat) :
    readN xs.length (xs ++ r) = some (xs, r) := by
  unfold readN
  rw [if_pos (by simp), List.take_left, List.drop_left]

theorem read_ip_write_ip (a : IPAddr) (r : List Nat) (h : ip_wf a) :
    read_ip (write_ip a ++ r) = some (a, r) := by
  cases a with
  | v4 b =>
    obtain ⟨hlen, -⟩ := h
    show read_ip (4 :: (b ++ r)) = some (.v4 b, r)
    have h4 : readN 4 (b ++ r) = some (b, r) := by rw [← hlen, readN_append]
    unfold read_ip
    simp [readU8, h4]
  | v6 b =>
    obtain ⟨hlen, -⟩ := h
    show read_ip (16 :: (b ++ r)) = some (.v6 b, r)
    have h16 : readN 16 (b ++ r) = some (b, r) := by rw [← hlen, readN_append]
    unfold read_ip
    simp [readU8, h16]

theorem getD_zero_replicate : ∀ (k j : Nat),
    (List.replicate k (0 : Nat)).getD j 0 = 0 := by
  intro k
  induction k with
  | zero => intro j; cases j <;> rfl
  | succ n ih =>
    intro j
    cases j with
    | zero => rfl
    | succ i => exact ih i

theorem getD_append_pad : ∀ (m : List Nat) (k j : Nat),
    (m ++ List.replicate k 0).getD j 0 = m.getD j 0 := by
  intro m
  induction m with
  | nil =>
    intro k j
    rw [List.nil_append]
    cases j <;> simp [getD_zero_replicate, List.getD]
  | cons a t ih =>
    intro k j
    cases j with
    | zero => rfl
    | succ i => exact ih k i

theorem getD_set_self : ∀ (l : List Nat) (i x : Nat), i < l.length →
    (l.set i x).getD i 0 = x := by
  intro l
  induction l with
  | nil => intro i x h; simp at h
  | cons a t ih =>
    intro i x h
    cases i with
    | zero => rfl
    | succ j => exact ih j x (by simpa using h)

theorem getD_set_ne : ∀ (l : List Nat) (i j x : Nat), i ≠ j →
    (l.set i x).getD j 0 = l.getD j 0 := by
  intro l
  induction l with
  | nil => intro i j x h; rfl
  | cons a t ih =>
    intro i j x h
    cases i with
    | zero =>
      cases j with
      | zero => exact absurd rfl h
      | succ j2 => rfl
    | succ i2 =>
      cases j with
      | zero => rfl
      | succ j2 => exact ih i2 j2 x (fun hh => h (by rw [hh]))

theorem idmap_get_set_self (m : List Nat) (i x : Nat) :
    idmap_get (idmap_set m i x) i = x := by
  unfold idmap_get idmap_set
  apply getD_set_self
  simp only [List.length_append, List.length_replicate]
  omega

theorem idmap_get_set_ne (m : List Nat) (i j x : Nat) (h : i ≠ j) :
    idmap_get (idmap_set m i x) j = idmap_get m j := by
  unfold idmap_get idmap_set
  rw [getD_set_ne _ _ _ _ h, getD_append_pad]

/-! ## Encoder shape with no filter callback -/

theorem write_peers_go_none : ∀ ps : List PeerRec,
    write_peers_go none ps =
      some ((ps.map write_peer_rec).flatten, ps.length) := by
  intro ps
  induction ps with
  | nil => rfl
  | cons p tl ih =>
    simp only [write_peers_go, wf_peer_verdict, ih]
    norm_num

theorem write_pfx_peers_go_none (e : PfxEntry) : ∀ pps : List PfxPeerRec,
    write_pfx_peers_go none e pps =
      some ((pps.map write_pfx_peer_rec).flatten, pps.length) := by
  intro pps
  induction pps with
  | nil => rfl
  | cons q tl ih =>
    simp only [write_pfx_peers_go, wf_pfx_peer_verdict, ih]
    norm_num

theorem write_pfxs_go_none : ∀ es : List PfxEntry,
    (∀ e2 ∈ es, (e2.peers.filter (fun q => q.active)).length ≠ 0) →
    write_pfxs_go none es =
      some ((es.map pfx_block).flatten, es.length) := by
  intro es
  induction es with
  | nil => intro _; rfl
  | cons e tl ih =>
    intro h
    have hne := h e (List.mem_cons_self e tl)
    simp only [write_pfxs_go, wf_pfx_verdict, write_pfx_peers_go_none,
      ih (fun x hx => h x (List.mem_cons_of_mem e hx))]
    rw [if_neg (by norm_num : ¬((1 : Int) < 0)),
      if_neg (by norm_num : ¬((1 : Int) = 0)), if_neg hne]
    simp [pfx_block, List.append_assoc]

/-! ## Renumbering facts -/

theorem renum_peers_length : ∀ (ps : List PeerRec) (n : Nat),
    (renum_peers n ps).length = ps.length := by
  intro ps
  induction ps with
  | nil => intro n; rfl
  | cons p tl ih => intro n; simp [renum_peers, ih]

theorem renum_peers_sigs : ∀ (ps : List PeerRec) (n : Nat),
    (renum_peers n ps).map (fun p => p.sig) = ps.map (fun p => p.sig) := by
  intro ps
  induction ps with
  | nil => intro n; rfl
  | cons p tl ih => intro n; simp [renum_peers, ih]

theorem renum_peers_active : ∀ (ps : List PeerRec) (n : Nat),
    ∀ p ∈ renum_peers n ps, p.active = true := by
  intro ps
  induction ps with
  | nil => intro n p hp; simp [renum_peers] at hp
  | cons q tl ih =>
    intro n p hp
    rw [renum_peers] at hp
    rcases List.mem_cons.mp hp with rfl | h2
    · rfl
    · exact ih (n + 1) p h2

theorem renum_peers_pids : ∀ (ps : List PeerRec) (n : Nat),
    (renum_peers n ps).map (fun p => p.pid) =
      List.range' (n + 1) ps.length := by
  intro ps
  induction ps with
  | nil => intro n; rfl
  | cons p tl ih =>
    intro n
    rw [renum_peers, List.map_cons, ih (n + 1), List.length_cons,
      List.range'_succ]

theorem renum_peers_zip : ∀ (ps : List PeerRec) (n : Nat),
    ∀ pr ∈ ps.zip (renum_peers n ps),
      pr.2.sig = pr.1.sig ∧ pr.2.active = true := by
  intro ps
  induction ps with
  | nil => intro n pr hpr; simp at hpr
  | cons p tl ih =>
    intro n pr hpr
    rw [renum_peers, List.zip_cons_cons] at hpr
    rcases List.mem_cons.mp hpr with rfl | h2
    · exact ⟨rfl, rfl⟩
    · exact ih (n + 1) pr h2

theorem zip_exists_peers : ∀ (ps : List PeerRec) (n : Nat) (p : PeerRec),
    p ∈ ps → ∃ rp, (p, rp) ∈ ps.zip (renum_peers n ps) := by
  intro ps
  induction ps with
  | nil => intro n p hp; simp at hp
  | cons q tl ih =>
    intro n p hp
    rcases List.mem_cons.mp hp with rfl | h2
    · refine ⟨⟨n + 1, p.sig, true⟩, ?_⟩
      rw [renum_peers, List.zip_cons_cons]
      exact List.mem_cons_self _ _
    · obtain ⟨rp, hrp⟩ := ih (n + 1) p h2
      refine ⟨rp, ?_⟩
      rw [renum_peers, List.zip_cons_cons]
      exact List.mem_cons_of_mem _ hrp

theorem renum_paths_length : ∀ (sps : List StorePath) (n : Nat),
    (renum_paths n sps).length = sps.length := by
  intro sps
  induction sps with
  | nil => intro n; rfl
  | cons sp tl ih => intro n; simp [renum_paths, ih]

theorem renum_paths_idxs : ∀ (sps : List StorePath) (n : Nat),
    (renum_paths n sps).map (fun p => p.idx) =
      List.range' n sps.length := by
  intro sps
  induction sps with
  | nil => intro n; rfl
  | cons sp tl ih =>
    intro n
    rw [renum_paths, List.map_cons, ih (n + 1), List.length_cons,
      List.range'_succ]

theorem renum_paths_zip : ∀ (sps : List StorePath) (n : Nat),
    ∀ pr ∈ sps.zip (renum_paths n sps),
      pr.2.data = pr.1.data ∧ pr.2.isCore = pr.1.isCore % 256 := by
  intro sps
  induction sps with
  | nil => intro n pr hpr; simp at hpr
  | cons sp tl ih =>
    intro n pr hpr
    rw [renum_paths, List.zip_cons_cons] at hpr
    rcases List.mem_cons.mp hpr with rfl | h2
    · exact ⟨rfl, rfl⟩
    · exact ih (n + 1) pr h2

theorem zip_exists_paths : ∀ (sps : List StorePath) (n : Nat)
    (sp : StorePath), sp ∈ sps →
    ∃ rp, (sp, rp) ∈ sps.zip (renum_paths n sps) := by
  intro sps
  induction sps with
  | nil => intro n sp hp; simp at hp
  | cons q tl ih =>
    intro n sp hp
    rcases List.mem_cons.mp hp with rfl | h2
    · refine ⟨⟨n, sp.isCore % 256, sp.data⟩, ?_⟩
      rw [renum_paths, List.zip_cons_cons]
      exact List.mem_cons_self _ _
    · obtain ⟨rp, hrp⟩ := ih (n + 1) sp h2
      refine ⟨rp, ?_⟩
      rw [renum_paths, List.zip_cons_cons]
      exact List.mem_cons_of_mem _ hrp

/-! ## Lookup by unique key -/

theorem find_key_unique {α : Type} {β : Type} [DecidableEq β] (key : α → β) :
    ∀ l : List α, (l.map key).Nodup → ∀ x ∈ l,
      l.find? (fun a => decide (key a = key x)) = some x := by
  intro l
  induction l with
  | nil => intro _ x hx; simp at hx
  | cons a t ih =>
    intro hnd x hx
    rw [List.map_cons, List.nodup_cons] at hnd
    rcases List.mem_cons.mp hx with rfl | hxt
    · rw [List.find?_cons_of_pos _ (by simp)]
    · have hne : key a ≠ key x := by
        intro he
        exact hnd.1 (he ▸ List.mem_map_of_mem key hxt)
      rw [List.find?_cons_of_neg _ (by simpa using hne)]
      exact ih hnd.2 x hxt

theorem key_unique {α : Type} {β : Type} (key : α → β) :
    ∀ l : List α, (l.map key).Nodup → ∀ x ∈ l, ∀ y ∈ l,
      key x = key y → x = y := by
  intro l
  induction l with
  | nil => intro _ x hx; simp at hx
  | cons a t ih =>
    intro hnd x hx y hy hk
    rw [List.map_cons, List.nodup_cons] at hnd
    rcases List.mem_cons.mp hx with rfl | hxt
    · rcases List.mem_cons.mp hy with rfl | hyt
      · rfl
      · exact absurd (hk ▸ List.mem_map_of_mem key hyt) hnd.1
    · rcases List.mem_cons.mp hy with rfl | hyt
      · exact absurd (hk ▸ List.mem_map_of_mem key hxt) hnd.1
      · exact ih hnd.2 x hxt y hyt hk

/-! ## Semantic characterization of the decode folds -/

theorem view_ext {a b : View} (h1 : a.time = b.time) (h2 : a.peers = b.peers)
    (h3 : a.paths = b.paths) (h4 : a.pfxs = b.pfxs) : a = b := by
  cases a
  cases b
  cases h1
  cases h2
  cases h3
  cases h4
  rfl

theorem add_peer_not_found (v : View) (sig : PeerSig)
    (h : ∀ q ∈ v.peers, q.sig ≠ sig) :
    bgpview_add_peer v sig =
      (v.peers.length + 1,
       { v with peers := v.peers ++ [⟨v.peers.length + 1, sig, false⟩] }) := by
  unfold bgpview_add_peer
  have hf : v.peers.find? (fun p => decide (p.sig = sig)) = none :=
    List.find?_eq_none.mpr (fun q hq => by simpa using h q hq)
  rw [hf]

theorem activate_append_fresh (v : View) (pid : Nat) (sig : PeerSig)
    (act : Bool) (h : ∀ q ∈ v.peers, q.pid ≠ pid) :
    bgpview_activate_peer { v with peers := v.peers ++ [⟨pid, sig, act⟩] }
        pid =
      { v with peers := v.peers ++ [⟨pid, sig, true⟩] } := by
  apply view_ext
  · rfl
  · show ((v.peers ++ [(⟨pid, sig, act⟩ : PeerRec)]).map
      fun p : PeerRec =>
        if p.pid = pid then { p with active := true } else p) =
      v.peers ++ [(⟨pid, sig, true⟩ : PeerRec)]
    rw [List.map_append]
    congr 1
    · conv_rhs => rw [← List.map_id v.peers]
      apply List.map_congr_left
      intro q hq
      rw [if_neg (h q hq)]
      rfl
    · simp
  · rfl
  · rfl

theorem decode_peers_fold_spec : ∀ (ps : List PeerRec) (v : View)
    (im : List Nat),
    (∀ p ∈ ps, ∀ q ∈ v.peers, q.sig ≠ p.sig) →
    (v.peers.map (fun p => p.pid) = List.range' 1 v.peers.length) →
    ((ps.map (fun p => p.sig)).Nodup) →
    ((ps.map (fun p => p.pid)).Nodup) →
    (decode_peers_fold v im ps).1 =
      { v with peers := v.peers ++ renum_peers v.peers.length ps } ∧
    (∀ pr ∈ ps.zip (renum_peers v.peers.length ps),
      idmap_get (decode_peers_fold v im ps).2 pr.1.pid = pr.2.pid) ∧
    (∀ i, i ∉ ps.map (fun p => p.pid) →
      idmap_get (decode_peers_fold v im ps).2 i = idmap_get im i) := by
  intro ps
  induction ps with
  | nil =>
    intro v im _ _ _ _
    refine ⟨?_, ?_, ?_⟩
    · show v = { v with peers := v.peers ++ renum_peers v.peers.length [] }
      rw [renum_peers, List.append_nil]
    · intro pr hpr
      rw [renum_peers] at hpr
      simp at hpr
    · intro i _
      rfl
  | cons p tl ih =>
    intro v im hdisj hseq hsig hpid
    rw [List.map_cons, List.nodup_cons] at hsig hpid
    have hpmem : p ∈ p :: tl := List.mem_cons_self p tl
    have hfresh : ∀ q ∈ v.peers, q.pid ≠ v.peers.length + 1 := by
      intro q hq
      have hmem : q.pid ∈ v.peers.map (fun p2 => p2.pid) :=
        List.mem_map_of_mem _ hq
      rw [hseq, List.mem_range'_1] at hmem
      omega
    have hstep : decode_peer_step (v, im) p =
        ({ v with peers :=
            v.peers ++ [⟨v.peers.length + 1, p.sig, true⟩] },
         idmap_set im p.pid (v.peers.length + 1)) := by
      unfold decode_peer_step
      rw [add_peer_not_found v p.sig
        (fun q hq hh => hdisj p hpmem q hq hh)]
      dsimp only
      rw [activate_append_fresh v (v.peers.length + 1) p.sig false hfresh]
    have hfold : decode_peers_fold v im (p :: tl) =
        decode_peers_fold
          { v with peers := v.peers ++ [⟨v.peers.length + 1, p.sig, true⟩] }
          (idmap_set im p.pid (v.peers.length + 1)) tl := by
      unfold decode_peers_fold
      rw [List.foldl_cons, hstep]
    set v2 : View :=
      { v with peers := v.peers ++ [⟨v.peers.length + 1, p.sig, true⟩] }
      with hv2
    have hlen2 : v2.peers.length = v.peers.length + 1 := by
      rw [hv2]
      simp
    have hdisj2 : ∀ p2 ∈ tl, ∀ q ∈ v2.peers, q.sig ≠ p2.sig := by
      intro p2 hp2 q hq
      rw [hv2] at hq
      rcases List.mem_append.mp hq with h1 | h2
      · exact hdisj p2 (List.mem_cons_of_mem p hp2) q h1
      · rw [List.mem_singleton] at h2
        subst h2
        show p.sig ≠ p2.sig
        intro hh
        exact hsig.1 (hh ▸ List.mem_map_of_mem _ hp2)
    have hseq2 : v2.peers.map (fun p2 => p2.pid) =
        List.range' 1 v2.peers.length := by
      rw [hv2]
      simp only [List.map_append, List.map_cons, List.map_nil]
      rw [hseq]
      rw [List.length_append, List.length_cons, List.length_nil]
      rw [List.range'_concat]
      congr 2
      omega
    obtain ⟨ih1, ih2, ih3⟩ :=
      ih v2 (idmap_set im p.pid (v.peers.length + 1)) hdisj2 hseq2
        hsig.2 hpid.2
    refine ⟨?_, ?_, ?_⟩
    · rw [hfold, ih1, hlen2]
      apply view_ext
      · rfl
      · show v2.peers ++ renum_peers (v.peers.length + 1) tl =
          v.peers ++ renum_peers v.peers.length (p :: tl)
        rw [renum_peers, hv2]
        simp [List.append_assoc]
      · rfl
      · rfl
    · intro pr hpr
      rw [renum_peers, List.zip_cons_cons] at hpr
      rcases List.mem_cons.mp hpr with rfl | h2
      · show idmap_get (decode_peers_fold v im (p :: tl)).2 p.pid =
          v.peers.length + 1
        rw [hfold, ih3 p.pid hpid.1, idmap_get_set_self]
      · rw [hfold]
        have := ih2 pr (by rw [hlen2]; exact h2)
        exact this
    · intro i hi
      rw [List.map_cons, List.mem_cons] at hi
      push_neg at hi
      rw [hfold, ih3 i hi.2, idmap_get_set_ne im p.pid i _
        (fun hh => hi.1 hh.symm)]

theorem store_insert_not_found (v : View) (data : List Nat) (core : Nat)
    (h : ∀ q ∈ v.paths, ¬(q.data = data ∧ q.isCore = core)) :
    bgpview_store_insert v data core =
      (v.paths.length,
       { v with paths := v.paths ++ [⟨v.paths.length, core, data⟩] }) := by
  unfold bgpview_store_insert
  have hf : v.paths.find?
      (fun p => decide (p.data = data ∧ p.isCore = core)) = none :=
    List.find?_eq_none.mpr (fun q hq => by simpa using h q hq)
  rw [hf]

theorem decode_paths_fold_spec : ∀ (sps : List StorePath) (v : View)
    (pm : List Nat),
    (∀ sp ∈ sps, ∀ q ∈ v.paths,
      ¬(q.data = sp.data ∧ q.isCore = sp.isCore % 256)) →
    (v.paths.map (fun p => p.idx) = List.range' 0 v.paths.length) →
    ((sps.map (fun sp => (sp.data, sp.isCore % 256))).Nodup) →
    ((sps.map (fun sp => sp.idx)).Nodup) →
    (decode_paths_fold v pm sps).1 =
      { v with paths := v.paths ++ renum_paths v.paths.length sps } ∧
    (∀ pr ∈ sps.zip (renum_paths v.paths.length sps),
      idmap_get (decode_paths_fold v pm sps).2 pr.1.idx = pr.2.idx) ∧
    (∀ i, i ∉ sps.map (fun sp => sp.idx) →
      idmap_get (decode_paths_fold v pm sps).2 i = idmap_get pm i) := by
  intro sps
  induction sps with
  | nil =>
    intro v pm _ _ _ _
    refine ⟨?_, ?_, ?_⟩
    · show v = { v with paths := v.paths ++ renum_paths v.paths.length [] }
      rw [renum_paths, List.append_nil]
    · intro pr hpr
      rw [renum_paths] at hpr
      simp at hpr
    · intro i _
      rfl
  | cons sp tl ih =>
    intro v pm hdisj hseq hpair hidx
    rw [List.map_cons, List.nodup_cons] at hpair hidx
    have hspmem : sp ∈ sp :: tl := List.mem_cons_self sp tl
    have hstep : decode_path_step (v, pm) sp =
        ({ v with paths :=
            v.paths ++ [⟨v.paths.length, sp.isCore % 256, sp.data⟩] },
         idmap_set pm sp.idx v.paths.length) := by
      unfold decode_path_step
      rw [store_insert_not_found v sp.data (sp.isCore % 256)
        (fun q hq => hdisj sp hspmem q hq)]
    have hfold : decode_paths_fold v pm (sp :: tl) =
        decode_paths_fold
          { v with paths :=
              v.paths ++ [⟨v.paths.length, sp.isCore % 256, sp.data⟩] }
          (idmap_set pm sp.idx v.paths.length) tl := by
      unfold decode_paths_fold
      rw [List.foldl_cons, hstep]
    set v2 : View :=
      { v with paths :=
          v.paths ++ [⟨v.paths.length, sp.isCore % 256, sp.data⟩] }
      with hv2
    have hlen2 : v2.paths.length = v.paths.length + 1 := by
      rw [hv2]
      simp
    have hdisj2 : ∀ sp2 ∈ tl, ∀ q ∈ v2.paths,
        ¬(q.data = sp2.data ∧ q.isCore = sp2.isCore % 256) := by
      intro sp2 hsp2 q hq
      rw [hv2] at hq
      rcases List.mem_append.mp hq with h1 | h2
      · exact hdisj sp2 (List.mem_cons_of_mem sp hsp2) q h1
      · rw [List.mem_singleton] at h2
        subst h2
        rintro ⟨hd, hc⟩
        apply hpair.1
        have : (sp.data, sp.isCore % 256) = (sp2.data, sp2.isCore % 256) := by
          rw [Prod.mk.injEq]
          exact ⟨hd, hc⟩
        rw [this]
        exact List.mem_map_of_mem _ hsp2
    have hseq2 : v2.paths.map (fun p2 => p2.idx) =
        List.range' 0 v2.paths.length := by
      rw [hv2]
      simp only [List.map_append, List.map_cons, List.map_nil]
      rw [hseq]
      rw [List.length_append, List.length_cons, List.length_nil]
      rw [List.range'_concat]
      congr 2
      omega
    obtain ⟨ih1, ih2, ih3⟩ :=
      ih v2 (idmap_set pm sp.idx v.paths.length) hdisj2 hseq2
        hpair.2 hidx.2
    refine ⟨?_, ?_, ?_⟩
    · rw [hfold, ih1, hlen2]
      apply view_ext
      · rfl
      · rfl
      · show v2.paths ++ renum_paths (v.paths.length + 1) tl =
          v.paths ++ renum_paths v.paths.length (sp :: tl)
        rw [renum_paths, hv2]
        simp [List.append_assoc]
      · rfl
    · intro pr hpr
      rw [renum_paths, List.zip_cons_cons] at hpr
      rcases List.mem_cons.mp hpr with rfl | h2
      · show idmap_get (decode_paths_fold v pm (sp :: tl)).2 sp.idx =
          v.paths.length
        rw [hfold, ih3 sp.idx hidx.1, idmap_get_set_self]
      · rw [hfold]
        exact ih2 pr (by rw [hlen2]; exact h2)
    · intro i hi
      rw [List.map_cons, List.mem_cons] at hi
      push_neg at hi
      rw [hfold, ih3 i hi.2, idmap_get_set_ne pm sp.idx i _
        (fun hh => hi.1 hh.symm)]

theorem peer_rec_update_active (p : PeerRec) (h : p.active = true) :
    ({ p with active := true } : PeerRec) = p := by
  cases p with
  | mk a b c =>
    have h2 : c = true := h
    rw [h2]

theorem activate_peers_id (v : View) (pfx : Pfx) (pid : Nat)
    (h : ∀ p ∈ v.peers, p.active = true) :
    (bgpview_pfx_activate_peer v pfx pid).peers = v.peers := by
  rw [pfx_activate_peers_eq]
  conv_rhs => rw [← List.map_id v.peers]
  apply List.map_congr_left
  intro p hp
  by_cases hh : p.pid = pid
  · rw [if_pos hh, peer_rec_update_active p (h p hp)]
    rfl
  · rw [if_neg hh]
    rfl

theorem add_pfx_peer_absent (v : View) (pfx : Pfx) (pid idx : Nat)
    (h : ∀ e ∈ v.pfxs, e.pfx ≠ pfx) :
    bgpview_add_pfx_peer v pfx pid idx =
      { v with pfxs := v.pfxs ++ [⟨pfx, false, [⟨pid, idx, false⟩]⟩] } := by
  unfold bgpview_add_pfx_peer
  have hf : v.pfxs.find? (fun e => decide (e.pfx = pfx)) = none :=
    List.find?_eq_none.mpr (fun e he => by simpa using h e he)
  rw [hf]
  rfl

theorem upsert_absent (acc : List PfxPeerRec) (pid idx : Nat)
    (h : ∀ q ∈ acc, q.pid ≠ pid) :
    pfx_peer_upsert acc pid idx = acc ++ [⟨pid, idx, false⟩] := by
  unfold pfx_peer_upsert
  have hf : acc.find? (fun q => decide (q.pid = pid)) = none :=
    List.find?_eq_none.mpr (fun q hq => by simpa using h q hq)
  rw [hf]
  rfl

theorem add_pfx_peer_present_last (v : View) (front : List PfxEntry)
    (fl : Bool) (acc : List PfxPeerRec) (pfx : Pfx) (pid idx : Nat)
    (hv : v.pfxs = front ++ [⟨pfx, fl, acc⟩])
    (hfront : ∀ e ∈ front, e.pfx ≠ pfx)
    (hacc : ∀ q ∈ acc, q.pid ≠ pid) :
    bgpview_add_pfx_peer v pfx pid idx =
      { v with pfxs :=
          front ++ [⟨pfx, fl, acc ++ [⟨pid, idx, false⟩]⟩] } := by
  have hffind : front.find? (fun e => decide (e.pfx = pfx)) = none :=
    List.find?_eq_none.mpr (fun e he => by simpa using hfront e he)
  have hf : v.pfxs.find? (fun e => decide (e.pfx = pfx)) =
      some ⟨pfx, fl, acc⟩ := by
    rw [hv, List.find?_append, hffind]
    simp
  unfold bgpview_add_pfx_peer
  rw [hf,
    if_pos (show (some (⟨pfx, fl, acc⟩ : PfxEntry)).isSome = true from rfl)]
  apply view_ext
  · rfl
  · rfl
  · rfl
  · show v.pfxs.map _ = _
    have hfmap : front.map (fun e =>
        if e.pfx = pfx then
          { e with peers := pfx_peer_upsert e.peers pid idx } else e) =
        front := by
      conv_rhs => rw [← List.map_id front]
      apply List.map_congr_left
      intro e he
      rw [if_neg (hfront e he)]
      rfl
    rw [hv, List.map_append, hfmap]
    simp only [List.map_cons, List.map_nil]
    rw [if_pos trivial, upsert_absent acc pid idx hacc]

theorem pfx_activate_split (v : View) (front : List PfxEntry) (fl : Bool)
    (acc : List PfxPeerRec) (pfx : Pfx) (pid : Nat)
    (hv : v.pfxs = front ++ [⟨pfx, fl, acc⟩])
    (hfront : ∀ e ∈ front, e.pfx ≠ pfx)
    (hpeers : ∀ p ∈ v.peers, p.active = true) :
    bgpview_pfx_activate_peer v pfx pid =
      { v with pfxs := front ++ [⟨pfx, true, acc.map (fun q =>
          if q.pid = pid then { q with active := true } else q)⟩] } := by
  apply view_ext
  · rfl
  · exact activate_peers_id v pfx pid hpeers
  · rfl
  · have hfmap : front.map (fun e =>
        if e.pfx = pfx then
          { e with
            active := true,
            peers := e.peers.map (fun q =>
              if q.pid = pid then { q with active := true } else q) }
        else e) = front := by
      conv_rhs => rw [← List.map_id front]
      apply List.map_congr_left
      intro e he
      rw [if_neg (hfront e he)]
      rfl
    rw [pfx_activate_pfxs_eq, hv, List.map_append, hfmap]
    simp only [List.map_cons, List.map_nil]
    rw [if_pos trivial]

theorem decode_pp_step_spec (v : View) (front : List PfxEntry)
    (acc : List PfxPeerRec) (pfx : Pfx) (pm idm : List Nat)
    (q : PfxPeerRec)
    (hv : v.pfxs = front ++ [⟨pfx, true, acc⟩])
    (hfront : ∀ e ∈ front, e.pfx ≠ pfx)
    (hacc : ∀ q0 ∈ acc, q0.pid ≠ idmap_get idm q.pid)
    (hpeers : ∀ p ∈ v.peers, p.active = true) :
    decode_pp_step pfx pm idm v q =
      { v with pfxs := front ++
          [⟨pfx, true, acc ++ [decode_pp_map pm idm q]⟩] } := by
  unfold decode_pp_step
  rw [add_pfx_peer_present_last v front true acc pfx
    (idmap_get idm q.pid) (idmap_get pm q.pathIdx) hv hfront hacc]
  rw [pfx_activate_split
    { v with pfxs := front ++ [⟨pfx, true, acc ++
        [⟨idmap_get idm q.pid, idmap_get pm q.pathIdx, false⟩]⟩] }
    front true
    (acc ++ [⟨idmap_get idm q.pid, idmap_get pm q.pathIdx, false⟩])
    pfx (idmap_get idm q.pid) rfl hfront hpeers]
  apply view_ext
  · rfl
  · rfl
  · rfl
  · have hmapacc : acc.map (fun q0 =>
        if q0.pid = idmap_get idm q.pid then
          { q0 with active := true } else q0) = acc := by
      conv_rhs => rw [← List.map_id acc]
      apply List.map_congr_left
      intro q0 h0
      rw [if_neg (hacc q0 h0)]
      rfl
    show front ++ _ = front ++ _
    rw [List.map_append, hmapacc]
    simp [decode_pp_map]

theorem decode_pp_fold_go : ∀ (pps : List PfxPeerRec) (v : View)
    (front : List PfxEntry) (acc : List PfxPeerRec) (pfx : Pfx)
    (pm idm : List Nat),
    v.pfxs = front ++ [⟨pfx, true, acc⟩] →
    (∀ e ∈ front, e.pfx ≠ pfx) →
    (∀ q ∈ acc, ∀ q2 ∈ pps, q.pid ≠ idmap_get idm q2.pid) →
    ((pps.map (fun q => idmap_get idm q.pid)).Nodup) →
    (∀ p ∈ v.peers, p.active = true) →
    decode_pp_fold pfx pm idm v pps =
      { v with pfxs :=
          front ++ [⟨pfx, true, acc ++ pps.map (decode_pp_map pm idm)⟩] } := by
  intro pps
  induction pps with
  | nil =>
    intro v front acc pfx pm idm hv _ _ _ _
    show v = _
    rw [List.map_nil, List.append_nil, ← hv]
  | cons q tl ih =>
    intro v front acc pfx pm idm hv hfront hacc hnd hpeers
    rw [List.map_cons, List.nodup_cons] at hnd
    have hacc_q : ∀ q0 ∈ acc, q0.pid ≠ idmap_get idm q.pid :=
      fun q0 h0 => hacc q0 h0 q (List.mem_cons_self q tl)
    have hstep := decode_pp_step_spec v front acc pfx pm idm q hv hfront
      hacc_q hpeers
    have hfold : decode_pp_fold pfx pm idm v (q :: tl) =
        decode_pp_fold pfx pm idm
          { v with pfxs := front ++
              [⟨pfx, true, acc ++ [decode_pp_map pm idm q]⟩] } tl := by
      unfold decode_pp_fold
      rw [List.foldl_cons, hstep]
    rw [hfold]
    have hih := ih
      { v with pfxs := front ++
          [⟨pfx, true, acc ++ [decode_pp_map pm idm q]⟩] }
      front (acc ++ [decode_pp_map pm idm q]) pfx pm idm rfl hfront
      (by
        intro q0 h0 q2 h2
        rcases List.mem_append.mp h0 with h1 | h1
        · exact hacc q0 h1 q2 (List.mem_cons_of_mem q h2)
        · rw [List.mem_singleton] at h1
          subst h1
          show idmap_get idm q.pid ≠ idmap_get idm q2.pid
          intro hh
          exact hnd.1 (hh ▸ List.mem_map_of_mem _ h2))
      hnd.2 hpeers
    rw [hih]
    apply view_ext
    · rfl
    · rfl
    · rfl
    · show front ++ _ = front ++ _
      rw [List.map_cons, List.append_assoc, List.singleton_append]

theorem decode_pp_first_step (v : View) (pfx : Pfx) (pm idm : List Nat)
    (q : PfxPeerRec)
    (hkeys : ∀ e ∈ v.pfxs, e.pfx ≠ pfx)
    (hpeers : ∀ p ∈ v.peers, p.active = true) :
    decode_pp_step pfx pm idm v q =
      { v with pfxs := v.pfxs ++ [⟨pfx, true, [decode_pp_map pm idm q]⟩] } := by
  unfold decode_pp_step
  rw [add_pfx_peer_absent v pfx (idmap_get idm q.pid)
    (idmap_get pm q.pathIdx) hkeys]
  rw [pfx_activate_split
    { v with pfxs := v.pfxs ++ [⟨pfx, false,
        [⟨idmap_get idm q.pid, idmap_get pm q.pathIdx, false⟩]⟩] }
    v.pfxs false [⟨idmap_get idm q.pid, idmap_get pm q.pathIdx, false⟩]
    pfx (idmap_get idm q.pid) rfl hkeys hpeers]
  apply view_ext
  · rfl
  · rfl
  · rfl
  · show v.pfxs ++ _ = v.pfxs ++ _
    simp [decode_pp_map]

theorem decode_pp_fold_new (pps : List PfxPeerRec) (v : View) (pfx : Pfx)
    (pm idm : List Nat)
    (hne : pps ≠ [])
    (hkeys : ∀ e ∈ v.pfxs, e.pfx ≠ pfx)
    (hnd : (pps.map (fun q => idmap_get idm q.pid)).Nodup)
    (hpeers : ∀ p ∈ v.peers, p.active = true) :
    decode_pp_fold pfx pm idm v pps =
      { v with pfxs :=
          v.pfxs ++ [⟨pfx, true, pps.map (decode_pp_map pm idm)⟩] } := by
  cases pps with
  | nil => exact absurd rfl hne
  | cons q tl =>
    rw [List.map_cons, List.nodup_cons] at hnd
    have hfold : decode_pp_fold pfx pm idm v (q :: tl) =
        decode_pp_fold pfx pm idm
          { v with pfxs := v.pfxs ++
              [⟨pfx, true, [decode_pp_map pm idm q]⟩] } tl := by
      unfold decode_pp_fold
      rw [List.foldl_cons, decode_pp_first_step v pfx pm idm q hkeys hpeers]
    rw [hfold]
    have hih := decode_pp_fold_go tl
      { v with pfxs := v.pfxs ++ [⟨pfx, true, [decode_pp_map pm idm q]⟩] }
      v.pfxs [decode_pp_map pm idm q] pfx pm idm rfl hkeys
      (by
        intro q0 h0 q2 h2
        rw [List.mem_singleton] at h0
        subst h0
        show idmap_get idm q.pid ≠ idmap_get idm q2.pid
        intro hh
        exact hnd.1 (hh ▸ List.mem_map_of_mem _ h2))
      hnd.2 hpeers
    rw [hih]
    apply view_ext
    · rfl
    · rfl
    · rfl
    · show v.pfxs ++ _ = v.pfxs ++ _
      rw [List.map_cons, List.singleton_append]

theorem decode_pfxs_fold_spec : ∀ (es : List PfxEntry) (v : View)
    (pm idm : List Nat),
    ((es.map pfx_norm).Nodup) →
    (∀ e ∈ es, ∀ e0 ∈ v.pfxs, e0.pfx ≠ pfx_norm e) →
    (∀ e ∈ es, e.peers.filter (fun q => q.active) ≠ []) →
    (∀ e ∈ es, (((e.peers.filter (fun q => q.active)).map
      (fun q => idmap_get idm q.pid)).Nodup)) →
    (∀ p ∈ v.peers, p.active = true) →
    decode_pfxs_fold pm idm v es =
      { v with pfxs := v.pfxs ++ es.map (fun e =>
          ⟨pfx_norm e, true,
            (e.peers.filter (fun q => q.active)).map
              (decode_pp_map pm idm)⟩) } := by
  intro es
  induction es with
  | nil =>
    intro v pm idm _ _ _ _ _
    show v = _
    rw [List.map_nil, List.append_nil]
  | cons e tl ih =>
    intro v pm idm hnd hkeys hne hppnd hpeers
    rw [List.map_cons, List.nodup_cons] at hnd
    have hemem : e ∈ e :: tl := List.mem_cons_self e tl
    have hstep : decode_pfx_step pm idm v e =
        { v with pfxs := v.pfxs ++ [⟨pfx_norm e, true,
            (e.peers.filter (fun q => q.active)).map
              (decode_pp_map pm idm)⟩] } := by
      show decode_pp_fold (pfx_norm e) pm idm v
        (e.peers.filter (fun q => q.active)) = _
      exact decode_pp_fold_new _ v (pfx_norm e) pm idm (hne e hemem)
        (fun e0 he0 => hkeys e hemem e0 he0) (hppnd e hemem) hpeers
    have hfold : decode_pfxs_fold pm idm v (e :: tl) =
        decode_pfxs_fold pm idm
          { v with pfxs := v.pfxs ++ [⟨pfx_norm e, true,
              (e.peers.filter (fun q => q.active)).map
                (decode_pp_map pm idm)⟩] } tl := by
      unfold decode_pfxs_fold
      rw [List.foldl_cons, hstep]
    rw [hfold]
    have hih := ih
      { v with pfxs := v.pfxs ++ [⟨pfx_norm e, true,
          (e.peers.filter (fun q => q.active)).map (decode_pp_map pm idm)⟩] }
      pm idm hnd.2
      (by
        intro e2 he2 e0 he0
        rcases List.mem_append.mp he0 with h1 | h1
        · exact hkeys e2 (List.mem_cons_of_mem e he2) e0 h1
        · rw [List.mem_singleton] at h1
          subst h1
          show pfx_norm e ≠ pfx_norm e2
          intro hh
          exact hnd.1 (hh ▸ List.mem_map_of_mem _ he2))
      (fun e2 he2 => hne e2 (List.mem_cons_of_mem e he2))
      (fun e2 he2 => hppnd e2 (List.mem_cons_of_mem e he2))
      hpeers
    rw [hih]
    apply view_ext
    · rfl
    · rfl
    · rfl
    · show (v.pfxs ++ _) ++ _ = v.pfxs ++ _
      rw [List.map_cons, List.append_assoc, List.singleton_append]

/-! ## Stream lemmas: decoding the encoder's output -/

theorem readU8_cons (b : Nat) (r : List Nat) : readU8 (b :: r) = some (b, r) :=
  rfl

theorem int_one_not_neg : ¬((1 : Int) < 0) := by norm_num

theorem int_one_ne_zero : ¬((1 : Int) = 0) := by norm_num

theorem read_peers_go_stream : ∀ (ps : List PeerRec) (fuel : Nat)
    (v : View) (im : List Nat) (c : Nat) (rest : List Nat),
    (∀ p ∈ ps, p.pid < 16896 ∧ sig_wf p.sig) →
    ps.length < fuel →
    read_peers_go none fuel
      ((ps.map write_peer_rec).flatten ++
        (magicBytes VIEW_PEER_END_MAGIC ++ bytesBE16 c ++ rest)) v im =
      (some ((decode_peers_fold v im ps).2, rest),
       (decode_peers_fold v im ps).1) := by
  intro ps
  induction ps with
  | nil =>
    intro fuel v im c rest _ hfuel
    cases fuel with
    | zero => omega
    | succ f =>
      rw [List.map_nil, List.flatten_nil, List.nil_append, List.append_assoc]
      unfold read_peers_go
      rw [check_magic_hit]
      rfl
  | cons p tl ih =>
    intro fuel v im c rest hwf hfuel
    obtain ⟨hpid, hsig⟩ := hwf p (List.mem_cons_self p tl)
    obtain ⟨hcol_len, hcol_bytes, hip, hasn⟩ := hsig
    cases fuel with
    | zero =>
      rw [List.length_cons] at hfuel
      omega
    | succ f =>
      have hstream : ((p :: tl).map write_peer_rec).flatten ++
          (magicBytes VIEW_PEER_END_MAGIC ++ bytesBE16 c ++ rest) =
          write_peer_rec p ++
            ((tl.map write_peer_rec).flatten ++
              (magicBytes VIEW_PEER_END_MAGIC ++ bytesBE16 c ++ rest)) := by
        rw [List.map_cons, List.flatten_cons, List.append_assoc]
      rw [hstream]
      have hhead : (write_peer_rec p ++
          ((tl.map write_peer_rec).flatten ++
            (magicBytes VIEW_PEER_END_MAGIC ++ bytesBE16 c ++ rest))).head? =
          some (p.pid / 256 % 256) := rfl
      have hne66 : p.pid / 256 % 256 ≠ 66 := by omega
      unfold read_peers_go
      rw [check_magic_head _ _ _ hhead hne66]
      have hparse : write_peer_rec p ++
          ((tl.map write_peer_rec).flatten ++
            (magicBytes VIEW_PEER_END_MAGIC ++ bytesBE16 c ++ rest)) =
          bytesBE16 p.pid ++ ((p.sig.collector.length % 256) ::
            (p.sig.collector ++ (write_ip p.sig.ip ++
              (bytesBE32 p.sig.asn ++
                ((tl.map write_peer_rec).flatten ++
                  (magicBytes VIEW_PEER_END_MAGIC ++ bytesBE16 c ++
                    rest)))))) := by
        rw [write_peer_rec]
        simp [List.append_assoc]
      rw [hparse]
      simp only [readU16BE_bytesBE16 p.pid _ (by omega), readU8_cons,
        Nat.mod_eq_of_lt (show p.sig.collector.length < 256 by omega),
        readN_append, read_ip_write_ip _ _ hip,
        readU32BE_bytesBE32 _ _ hasn]
      rw [if_neg int_one_not_neg, if_neg int_one_ne_zero]
      rw [show (⟨p.sig.collector, p.sig.ip, p.sig.asn⟩ : PeerSig) = p.sig
        from rfl]
      have hfoldcons : decode_peers_fold v im (p :: tl) =
          decode_peers_fold
            (bgpview_activate_peer (bgpview_add_peer v p.sig).2
              (bgpview_add_peer v p.sig).1)
            (idmap_set im p.pid (bgpview_add_peer v p.sig).1) tl := by
        unfold decode_peers_fold
        rw [List.foldl_cons]
        rfl
      rw [hfoldcons]
      exact ih f _ _ c rest
        (fun p2 hp2 => hwf p2 (List.mem_cons_of_mem p hp2))
        (by rw [List.length_cons] at hfuel; omega)

theorem read_paths_go_stream : ∀ (sps : List StorePath) (fuel : Nat)
    (v : View) (pm : List Nat) (c : Nat) (rest : List Nat),
    (∀ sp ∈ sps, sp.idx < 4294967296 ∧ sp.idx % 256 ≠ 66 ∧
      sp.data.length < 65536) →
    sps.length < fuel →
    read_paths_go fuel
      ((sps.map write_path_rec).flatten ++
        (magicBytes VIEW_PATH_END_MAGIC ++ bytesBE32 c ++ rest)) v pm =
      (some ((decode_paths_fold v pm sps).2, rest),
       (decode_paths_fold v pm sps).1) := by
  intro sps
  induction sps with
  | nil =>
    intro fuel v pm c rest _ hfuel
    cases fuel with
    | zero => omega
    | succ f =>
      rw [List.map_nil, List.flatten_nil, List.nil_append, List.append_assoc]
      unfold read_paths_go
      rw [check_magic_hit]
      rfl
  | cons sp tl ih =>
    intro fuel v pm c rest hwf hfuel
    obtain ⟨hidx, hidx66, hdlen⟩ := hwf sp (List.mem_cons_self sp tl)
    cases fuel with
    | zero =>
      rw [List.length_cons] at hfuel
      omega
    | succ f =>
      have hstream : ((sp :: tl).map write_path_rec).flatten ++
          (magicBytes VIEW_PATH_END_MAGIC ++ bytesBE32 c ++ rest) =
          write_path_rec sp ++
            ((tl.map write_path_rec).flatten ++
              (magicBytes VIEW_PATH_END_MAGIC ++ bytesBE32 c ++ rest)) := by
        rw [List.map_cons, List.flatten_cons, List.append_assoc]
      rw [hstream]
      have hhead : (write_path_rec sp ++
          ((tl.map write_path_rec).flatten ++
            (magicBytes VIEW_PATH_END_MAGIC ++ bytesBE32 c ++ rest))).head? =
          some (sp.idx % 256) := rfl
      unfold read_paths_go
      rw [check_magic_head _ _ _ hhead hidx66]
      have hparse : write_path_rec sp ++
          ((tl.map write_path_rec).flatten ++
            (magicBytes VIEW_PATH_END_MAGIC ++ bytesBE32 c ++ rest)) =
          bytesHost32 sp.idx ++ ((sp.isCore % 256) ::
            (bytesHost16 sp.data.length ++ (sp.data ++
              ((tl.map write_path_rec).flatten ++
                (magicBytes VIEW_PATH_END_MAGIC ++ bytesBE32 c ++
                  rest))))) := by
        rw [write_path_rec]
        simp [List.append_assoc]
      rw [hparse]
      simp only [readU32Host_bytesHost32 _ _ hidx, readU8_cons,
        readU16Host_bytesHost16 _ _ hdlen, readN_append]
      have hfoldcons : decode_paths_fold v pm (sp :: tl) =
          decode_paths_fold (bgpview_store_insert v sp.data (sp.isCore % 256)).2
            (idmap_set pm sp.idx
              (bgpview_store_insert v sp.data (sp.isCore % 256)).1) tl := by
        unfold decode_paths_fold
        rw [List.foldl_cons]
        rfl
      rw [hfoldcons]
      exact ih f _ _ c rest
        (fun sp2 hsp2 => hwf sp2 (List.mem_cons_of_mem sp hsp2))
        (by rw [List.length_cons] at hfuel; omega)

theorem read_pp_go_stream : ∀ (pps : List PfxPeerRec) (fuel : Nat)
    (v : View) (pfx : Pfx) (pm idm : List Nat) (c : Nat) (rest : List Nat),
    (∀ q ∈ pps, q.pid < 16896 ∧ q.pathIdx < 4294967296) →
    pps.length < fuel →
    read_pfx_peers_go none pfx false pm idm fuel
      ((pps.map write_pfx_peer_rec).flatten ++
        (magicBytes VIEW_PEER_END_MAGIC ++ bytesBE16 c ++ rest)) v =
      (some rest, decode_pp_fold pfx pm idm v pps) := by
  intro pps
  induction pps with
  | nil =>
    intro fuel v pfx pm idm c rest _ hfuel
    cases fuel with
    | zero => omega
    | succ f =>
      rw [List.map_nil, List.flatten_nil, List.nil_append, List.append_assoc]
      unfold read_pfx_peers_go
      rw [check_magic_hit]
      rfl
  | cons q tl ih =>
    intro fuel v pfx pm idm c rest hwf hfuel
    obtain ⟨hpid, hpi⟩ := hwf q (List.mem_cons_self q tl)
    cases fuel with
    | zero =>
      rw [List.length_cons] at hfuel
      omega
    | succ f =>
      have hstream : ((q :: tl).map write_pfx_peer_rec).flatten ++
          (magicBytes VIEW_PEER_END_MAGIC ++ bytesBE16 c ++ rest) =
          write_pfx_peer_rec q ++
            ((tl.map write_pfx_peer_rec).flatten ++
              (magicBytes VIEW_PEER_END_MAGIC ++ bytesBE16 c ++ rest)) := by
        rw [List.map_cons, List.flatten_cons, List.append_assoc]
      rw [hstream]
      have hhead : (write_pfx_peer_rec q ++
          ((tl.map write_pfx_peer_rec).flatten ++
            (magicBytes VIEW_PEER_END_MAGIC ++ bytesBE16 c ++ rest))).head? =
          some (q.pid / 256 % 256) := rfl
      have hne66 : q.pid / 256 % 256 ≠ 66 := by omega
      unfold read_pfx_peers_go
      rw [check_magic_head _ _ _ hhead hne66]
      have hparse : write_pfx_peer_rec q ++
          ((tl.map write_pfx_peer_rec).flatten ++
            (magicBytes VIEW_PEER_END_MAGIC ++ bytesBE16 c ++ rest)) =
          bytesBE16 q.pid ++ (bytesHost32 q.pathIdx ++
            ((tl.map write_pfx_peer_rec).flatten ++
              (magicBytes VIEW_PEER_END_MAGIC ++ bytesBE16 c ++ rest))) := by
        rw [write_pfx_peer_rec]
        simp [List.append_assoc]
      rw [hparse]
      simp only [readU16BE_bytesBE16 q.pid _ (by omega),
        readU32Host_bytesHost32 _ _ hpi]
      rw [if_neg (show ¬(false = true) by simp)]
      rw [if_neg int_one_not_neg, if_neg int_one_ne_zero]
      have hfoldcons : decode_pp_fold pfx pm idm v (q :: tl) =
          decode_pp_fold pfx pm idm (decode_pp_step pfx pm idm v q) tl := by
        unfold decode_pp_fold
        rw [List.foldl_cons]
      rw [hfoldcons]
      exact ih f _ pfx pm idm c rest
        (fun q2 hq2 => hwf q2 (List.mem_cons_of_mem q hq2))
        (by rw [List.length_cons] at hfuel; omega)

theorem read_pfxs_go_stream : ∀ (es : List PfxEntry) (fuel : Nat)
    (v : View) (pm idm : List Nat) (c : Nat) (rest : List Nat),
    (∀ e ∈ es, ip_wf e.pfx.addr ∧
      (e.peers.filter (fun q => q.active)).length < 65535 ∧
      (∀ q ∈ e.peers.filter (fun q => q.active),
        q.pid < 16896 ∧ q.pathIdx < 4294967296)) →
    es.length < fuel →
    read_pfxs_go none none pm idm fuel
      ((es.map pfx_block).flatten ++
        (magicBytes VIEW_PFX_END_MAGIC ++ bytesBE32 c ++ rest)) v =
      (some rest, decode_pfxs_fold pm idm v es) := by
  intro es
  induction es with
  | nil =>
    intro fuel v pm idm c rest _ hfuel
    cases fuel with
    | zero => omega
    | succ f =>
      rw [List.map_nil, List.flatten_nil, List.nil_append, List.append_assoc]
      unfold read_pfxs_go
      rw [check_magic_hit]
      rfl
  | cons e tl ih =>
    intro fuel v pm idm c rest hwf hfuel
    obtain ⟨hip, hpplen, hppwf⟩ := hwf e (List.mem_cons_self e tl)
    cases fuel with
    | zero =>
      rw [List.length_cons] at hfuel
      omega
    | succ f =>
      have hstream : ((e :: tl).map pfx_block).flatten ++
          (magicBytes VIEW_PFX_END_MAGIC ++ bytesBE32 c ++ rest) =
          pfx_block e ++
            ((tl.map pfx_block).flatten ++
              (magicBytes VIEW_PFX_END_MAGIC ++ bytesBE32 c ++ rest)) := by
        rw [List.map_cons, List.flatten_cons, List.append_assoc]
      rw [hstream]
      have hcm : check_magic VIEW_PFX_END_MAGIC (pfx_block e ++
          ((tl.map pfx_block).flatten ++
            (magicBytes VIEW_PFX_END_MAGIC ++ bytesBE32 c ++ rest))) =
          (false, pfx_block e ++
            ((tl.map pfx_block).flatten ++
              (magicBytes VIEW_PFX_END_MAGIC ++ bytesBE32 c ++ rest))) := by
        cases haddr : e.pfx.addr with
        | v4 b =>
          apply check_magic_head _ _ 4 _ (by norm_num)
          rw [pfx_block, haddr]
          rfl
        | v6 b =>
          apply check_magic_head _ _ 16 _ (by norm_num)
          rw [pfx_block, haddr]
          rfl
      unfold read_pfxs_go
      rw [hcm]
      have hparse : pfx_block e ++
          ((tl.map pfx_block).flatten ++
            (magicBytes VIEW_PFX_END_MAGIC ++ bytesBE32 c ++ rest)) =
          write_ip e.pfx.addr ++ ((e.pfx.maskLen % 256) ::
            (((e.peers.filter (fun q => q.active)).map
              write_pfx_peer_rec).flatten ++
              (magicBytes VIEW_PEER_END_MAGIC ++
                bytesBE16 (e.peers.filter (fun q => q.active)).length ++
                ((tl.map pfx_block).flatten ++
                  (magicBytes VIEW_PFX_END_MAGIC ++ bytesBE32 c ++
                    rest))))) := by
        rw [pfx_block]
        simp [List.append_assoc]
      rw [hparse]
      simp only [read_ip_write_ip _ _ hip, readU8_cons]
      rw [if_neg int_one_not_neg,
        show (decide ((1 : Int) = 0)) = false from rfl]
      rw [read_pp_go_stream (e.peers.filter (fun q => q.active)) 65535 v
        ⟨e.pfx.addr, e.pfx.maskLen % 256⟩ pm idm
        (e.peers.filter (fun q => q.active)).length
        ((tl.map pfx_block).flatten ++
          (magicBytes VIEW_PFX_END_MAGIC ++ bytesBE32 c ++ rest))
        hppwf hpplen]
      have hfoldcons : decode_pfxs_fold pm idm v (e :: tl) =
          decode_pfxs_fold pm idm (decode_pfx_step pm idm v e) tl := by
        unfold decode_pfxs_fold
        rw [List.foldl_cons]
      rw [hfoldcons]
      exact ih f _ pm idm c rest
        (fun e2 he2 => hwf e2 (List.mem_cons_of_mem e he2))
        (by rw [List.length_cons] at hfuel; omega)

theorem check_magic_exact (m : Nat) : check_magic m (magicBytes m) = (true, []) := by
  have h := check_magic_hit m []
  rwa [List.append_nil] at h

theorem zip_right_unique {α : Type} {β : Type} :
    ∀ (l1 : List α) (l2 : List β), l2.Nodup →
      ∀ (a b : α) (y : β), (a, y) ∈ l1.zip l2 → (b, y) ∈ l1.zip l2 →
        a = b := by
  intro l1
  induction l1 with
  | nil =>
    intro l2 _ a b y ha
    simp at ha
  | cons x t1 ih =>
    intro l2 hnd a b y ha hb
    cases l2 with
    | nil => simp at ha
    | cons z t2 =>
      rw [List.nodup_cons] at hnd
      rw [List.zip_cons_cons] at ha hb
      rcases List.mem_cons.mp ha with h1 | h1
      · rcases List.mem_cons.mp hb with h2 | h2
        · rw [Prod.mk.injEq] at h1 h2
          rw [h1.1, h2.1]
        · exfalso
          have hy : y = z := (Prod.mk.injEq .. ▸ h1).2
          subst hy
          exact hnd.1 (List.mem_zip h2).2
      · rcases List.mem_cons.mp hb with h2 | h2
        · exfalso
          have hy : y = z := (Prod.mk.injEq .. ▸ h2).2
          subst hy
          exact hnd.1 (List.mem_zip h1).2
        · exact ih t2 hnd.2 a b y h1 h2

theorem file_read_of_write (v : View) (hwf : view_wf v) :
    ∃ s : List Nat,
      bgpview_io_file_write v none = some s ∧
      bgpview_io_file_read s empty_view none none none =
        (ReadRes.okv,
         (⟨v.time,
           renum_peers 0 (v.peers.filter (fun p => p.active)),
           renum_paths 0 v.paths,
           (v.pfxs.filter (fun e => e.active)).map (fun e =>
             (⟨pfx_norm e, true,
               (e.peers.filter (fun q => q.active)).map
                 (decode_pp_map
                   (decode_paths_fold
                     (⟨v.time,
                       renum_peers 0 (v.peers.filter (fun p => p.active)),
                       [], []⟩ : View) [] v.paths).2
                   (decode_peers_fold (⟨v.time, [], [], []⟩ : View) []
                     (v.peers.filter (fun p => p.active))).2)⟩ :
              PfxEntry))⟩ : View),
         []) ∧
      (∀ pr ∈ (v.peers.filter (fun p => p.active)).zip
          (renum_peers 0 (v.peers.filter (fun p => p.active))),
        idmap_get
          (decode_peers_fold (⟨v.time, [], [], []⟩ : View) []
            (v.peers.filter (fun p => p.active))).2 pr.1.pid = pr.2.pid) ∧
      (∀ pr ∈ v.paths.zip (renum_paths 0 v.paths),
        idmap_get
          (decode_paths_fold
            (⟨v.time, renum_peers 0 (v.peers.filter (fun p => p.active)),
              [], []⟩ : View) [] v.paths).2 pr.1.idx = pr.2.idx) := by
  obtain ⟨ht, hplen, hpidnd, hsignd, hpwf, hpathlen, hidxnd, hpairnd,
    hpathwf, hpfxlen, hpfxnd, hentry⟩ := hwf
  -- abbreviations
  have hps_wf : ∀ p ∈ v.peers.filter (fun p => p.active),
      p.pid < 16896 ∧ sig_wf p.sig := by
    intro p hp
    obtain ⟨-, h2, h3⟩ := hpwf p (List.mem_of_mem_filter hp)
    exact ⟨h2, h3⟩
  have hps_len : (v.peers.filter (fun p => p.active)).length < 65535 :=
    Nat.lt_of_le_of_lt (List.length_filter_le _ _) hplen
  have hsig_nd_ps :
      ((v.peers.filter (fun p => p.active)).map (fun p => p.sig)).Nodup :=
    List.Nodup.sublist (List.Sublist.map _ (List.filter_sublist _)) hsignd
  have hpid_nd_ps :
      ((v.peers.filter (fun p => p.active)).map (fun p => p.pid)).Nodup :=
    List.Nodup.sublist (List.Sublist.map _ (List.filter_sublist _)) hpidnd
  have hsps_wf : ∀ sp ∈ v.paths, sp.idx < 4294967296 ∧ sp.idx % 256 ≠ 66 ∧
      sp.data.length < 65536 := by
    intro sp hsp
    obtain ⟨h1, h2, -, h4, -⟩ := hpathwf sp hsp
    exact ⟨h1, h2, h4⟩
  have hne_filter : ∀ e ∈ v.pfxs.filter (fun e => e.active),
      e.peers.filter (fun q => q.active) ≠ [] := by
    intro e he
    have hmem := List.mem_filter.mp he
    have hea : e.active = true := by simpa using hmem.2
    obtain ⟨q, hq, hqa⟩ :=
      ((hentry e hmem.1).2.2.2.2.1).mp hea
    intro h0
    have hqf : q ∈ e.peers.filter (fun q => q.active) :=
      List.mem_filter.mpr ⟨hq, by simpa using hqa⟩
    rw [h0] at hqf
    exact absurd hqf (List.not_mem_nil q)
  have hne_len : ∀ e ∈ v.pfxs.filter (fun e => e.active),
      (e.peers.filter (fun q => q.active)).length ≠ 0 := by
    intro e he h0
    rw [List.length_eq_zero] at h0
    exact hne_filter e he h0
  have hes_wf : ∀ e ∈ v.pfxs.filter (fun e => e.active),
      ip_wf e.pfx.addr ∧
      (e.peers.filter (fun q => q.active)).length < 65535 ∧
      (∀ q ∈ e.peers.filter (fun q => q.active),
        q.pid < 16896 ∧ q.pathIdx < 4294967296) := by
    intro e he
    have hmem := List.mem_filter.mp he
    obtain ⟨hip, -, helen, -, -, hqwf⟩ := hentry e hmem.1
    refine ⟨hip, Nat.lt_of_le_of_lt (List.length_filter_le _ _) helen, ?_⟩
    intro q hq
    have hqmem := List.mem_filter.mp hq
    have hqa : q.active = true := by simpa using hqmem.2
    obtain ⟨⟨p, hpv, hppid, -⟩, ⟨sp, hspv, hspi⟩⟩ := hqwf q hqmem.1 hqa
    obtain ⟨-, hplt, -⟩ := hpwf p hpv
    obtain ⟨hilt, -, -, -, -⟩ := hpathwf sp hspv
    exact ⟨hppid ▸ hplt, hspi ▸ hilt⟩
  -- the encoder output
  have hwp : write_peers v none =
      some (((v.peers.filter (fun p => p.active)).map
          write_peer_rec).flatten ++
        magicBytes VIEW_PEER_END_MAGIC ++
        bytesBE16 (v.peers.filter (fun p => p.active)).length) := by
    unfold write_peers
    rw [write_peers_go_none]
  have hwx : write_pfxs v none =
      some (((v.pfxs.filter (fun e => e.active)).map pfx_block).flatten ++
        magicBytes VIEW_PFX_END_MAGIC ++
        bytesBE32 (v.pfxs.filter (fun e => e.active)).length) := by
    unfold write_pfxs
    rw [write_pfxs_go_none _ hne_len]
  have hpairnd' : (v.paths.map (fun sp => (sp.data, sp.isCore % 256))).Nodup := by
    have hcongr : v.paths.map (fun sp => (sp.data, sp.isCore % 256)) =
        v.paths.map (fun p => (p.data, p.isCore)) := by
      apply List.map_congr_left
      intro sp hsp
      obtain ⟨-, -, hic, -, -⟩ := hpathwf sp hsp
      rw [Nat.mod_eq_of_lt hic]
    rw [hcongr]
    exact hpairnd
  have hA := decode_peers_fold_spec (v.peers.filter (fun p => p.active))
    (⟨v.time, [], [], []⟩ : View) []
    (fun p _ q hq => absurd hq (List.not_mem_nil q)) rfl
    hsig_nd_ps hpid_nd_ps
  have hA1 : (decode_peers_fold (⟨v.time, [], [], []⟩ : View) []
      (v.peers.filter (fun p => p.active))).1 =
      (⟨v.time, renum_peers 0 (v.peers.filter (fun p => p.active)),
        [], []⟩ : View) := by
    rw [hA.1]
    rfl
  have hB := decode_paths_fold_spec v.paths
    (⟨v.time, renum_peers 0 (v.peers.filter (fun p => p.active)),
      [], []⟩ : View) []
    (fun sp _ q hq => absurd hq (List.not_mem_nil q)) rfl
    hpairnd' hidxnd
  have hB1 : (decode_paths_fold
      (⟨v.time, renum_peers 0 (v.peers.filter (fun p => p.active)),
        [], []⟩ : View) [] v.paths).1 =
      (⟨v.time, renum_peers 0 (v.peers.filter (fun p => p.active)),
        renum_paths 0 v.paths, []⟩ : View) := by
    rw [hB.1]
    rfl
  refine ⟨magicBytes VIEW_START_MAGIC ++ (bytesBE32 v.time ++
    (((v.peers.filter (fun p => p.active)).map write_peer_rec).flatten ++
      (magicBytes VIEW_PEER_END_MAGIC ++
        bytesBE16 (v.peers.filter (fun p => p.active)).length ++
        ((v.paths.map write_path_rec).flatten ++
          (magicBytes VIEW_PATH_END_MAGIC ++ bytesBE32 v.paths.length ++
            (((v.pfxs.filter (fun e => e.active)).map pfx_block).flatten ++
              (magicBytes VIEW_PFX_END_MAGIC ++
                bytesBE32 (v.pfxs.filter (fun e => e.active)).length ++
                magicBytes VIEW_END_MAGIC))))))), ?_, ?_, ?_, ?_⟩
  · -- encoder equality
    unfold bgpview_io_file_write
    rw [hwp, hwx]
    unfold write_paths
    simp [List.append_assoc]
  · -- decoder run
    unfold bgpview_io_file_read
    rw [if_neg (by rw [List.length_append, magicBytes_length]; omega)]
    simp only [check_magic_hit, readU32BE_bytesBE32 v.time _ ht]
    rw [show ({ empty_view with time := v.time } : View) =
      (⟨v.time, [], [], []⟩ : View) from rfl]
    unfold read_peers
    rw [read_peers_go_stream (v.peers.filter (fun p => p.active)) 65535
      (⟨v.time, [], [], []⟩ : View) []
      (v.peers.filter (fun p => p.active)).length _ hps_wf hps_len]
    unfold read_paths
    simp only []
    rw [read_paths_go_stream v.paths 4294967295 _ [] v.paths.length _
      hsps_wf hpathlen]
    simp only []
    rw [read_pfxs_go_stream (v.pfxs.filter (fun e => e.active)) 4294967295
      _ _ _ (v.pfxs.filter (fun e => e.active)).length (magicBytes
        VIEW_END_MAGIC) hes_wf
      (Nat.lt_of_le_of_lt (List.length_filter_le _ _) hpfxlen)]
    simp only [check_magic_exact]
    rw [hA1]
    rw [hB1]
    -- phase C hypotheses
    have hnorm_eq : ∀ e ∈ v.pfxs.filter (fun e => e.active),
        pfx_norm e = e.pfx := by
      intro e he
      obtain ⟨-, hm, -⟩ := hentry e (List.mem_of_mem_filter he)
      unfold pfx_norm
      rw [Nat.mod_eq_of_lt hm]
    have hnd_norm : ((v.pfxs.filter (fun e => e.active)).map
        pfx_norm).Nodup := by
      rw [List.map_congr_left hnorm_eq]
      exact List.Nodup.sublist
        (List.Sublist.map _ (List.filter_sublist _)) hpfxnd
    have hrenum_nd : (renum_peers 0
        (v.peers.filter (fun p => p.active))).Nodup := by
      apply List.Nodup.of_map (fun p => p.pid)
      rw [renum_peers_pids]
      exact List.nodup_range' _ _
    have him_inj : ∀ a ∈ v.peers.filter (fun p => p.active),
        ∀ b ∈ v.peers.filter (fun p => p.active),
        idmap_get (decode_peers_fold (⟨v.time, [], [], []⟩ : View) []
          (v.peers.filter (fun p => p.active))).2 a.pid =
        idmap_get (decode_peers_fold (⟨v.time, [], [], []⟩ : View) []
          (v.peers.filter (fun p => p.active))).2 b.pid →
        a.pid = b.pid := by
      intro a ha b hb heq
      obtain ⟨ra, hra⟩ := zip_exists_peers _ 0 a ha
      obtain ⟨rb, hrb⟩ := zip_exists_peers _ 0 b hb
      have h1 := hA.2.1 (a, ra) hra
      have h2 := hA.2.1 (b, rb) hrb
      have hrr : ra.pid = rb.pid := by
        rw [← h1, ← h2, heq]
      have hnd_rp : ((renum_peers 0
          (v.peers.filter (fun p => p.active))).map
            (fun p => p.pid)).Nodup := by
        rw [renum_peers_pids]
        exact List.nodup_range' _ _
      have hab : ra = rb :=
        key_unique (fun p => p.pid) _ hnd_rp ra (List.mem_zip hra).2
          rb (List.mem_zip hrb).2 hrr
      subst hab
      have := zip_right_unique _ _ hrenum_nd a b ra hra hrb
      rw [this]
    have hmapped_nd : ∀ e ∈ v.pfxs.filter (fun e => e.active),
        (((e.peers.filter (fun q => q.active)).map (fun q =>
          idmap_get (decode_peers_fold (⟨v.time, [], [], []⟩ : View) []
            (v.peers.filter (fun p => p.active))).2 q.pid)).Nodup) := by
      intro e he
      have hmem := List.mem_filter.mp he
      obtain ⟨-, -, -, hqnd, -, hqwf⟩ := hentry e hmem.1
      have hqnd_f : ((e.peers.filter (fun q => q.active)).map
          (fun q => q.pid)).Nodup :=
        List.Nodup.sublist (List.Sublist.map _ (List.filter_sublist _)) hqnd
      apply List.Nodup.map_on
      · intro x hx y hy hxy
        have hxmem := List.mem_filter.mp hx
        have hymem := List.mem_filter.mp hy
        have hxa : x.active = true := by simpa using hxmem.2
        have hya : y.active = true := by simpa using hymem.2
        obtain ⟨⟨px, hpxv, hpxid, hpxa⟩, -⟩ := hqwf x hxmem.1 hxa
        obtain ⟨⟨py, hpyv, hpyid, hpya⟩, -⟩ := hqwf y hymem.1 hya
        have hpx_f : px ∈ v.peers.filter (fun p => p.active) :=
          List.mem_filter.mpr ⟨hpxv, by simpa using hpxa⟩
        have hpy_f : py ∈ v.peers.filter (fun p => p.active) :=
          List.mem_filter.mpr ⟨hpyv, by simpa using hpya⟩
        have hpxy : px.pid = py.pid := by
          apply him_inj px hpx_f py hpy_f
          rw [hpxid, hpyid]
          exact hxy
        have hxid : x.pid = y.pid := by
          rw [← hpxid, ← hpyid, hpxy]
        exact key_unique (fun q => q.pid) _ hqnd_f x hx y hy hxid
      · exact List.Nodup.of_map _ hqnd_f
    have hC := decode_pfxs_fold_spec (v.pfxs.filter (fun e => e.active))
      (⟨v.time, renum_peers 0 (v.peers.filter (fun p => p.active)),
        renum_paths 0 v.paths, []⟩ : View)
      (decode_paths_fold
        (⟨v.time, renum_peers 0 (v.peers.filter (fun p => p.active)),
          [], []⟩ : View) [] v.paths).2
      (decode_peers_fold (⟨v.time, [], [], []⟩ : View) []
        (v.peers.filter (fun p => p.active))).2
      hnd_norm
      (fun e _ e0 he0 => absurd he0 (List.not_mem_nil e0))
      hne_filter
      hmapped_nd
      (renum_peers_active _ 0)
    rw [hC]
    rfl
  · -- peer idmap pairs
    intro pr hpr
    exact hA.2.1 pr hpr
  · -- path idmap pairs
    intro pr hpr
    exact hB.2.1 pr hpr

theorem flatMap_filter_eq {α β : Type} (p : α → Bool) (F : α → List β) :
    ∀ l : List α, (∀ e ∈ l, p e = false → F e = []) →
      l.flatMap F = (l.filter p).flatMap F := by
  intro l
  induction l with
  | nil => intro _; rfl
  | cons e t ih =>
    intro h
    cases he : p e with
    | false =>
      rw [List.flatMap_cons, h e (List.mem_cons_self e t) he,
        List.filter_cons_of_neg (by rw [he]; exact Bool.false_ne_true),
        List.nil_append,
        ih (fun x hx hfx => h x (List.mem_cons_of_mem _ hx) hfx)]
    | true =>
      rw [List.flatMap_cons, List.filter_cons_of_pos he, List.flatMap_cons,
        ih (fun x hx hfx => h x (List.mem_cons_of_mem _ hx) hfx)]
  
theorem filterMap_filter_eq {α β : Type} (p : α → Bool) (g : α → Option β) :
    ∀ l : List α, (∀ x ∈ l, p x = false → g x = none) →
      l.filterMap g = (l.filter p).filterMap g := by
  intro l
  induction l with
  | nil => intro _; rfl
  | cons e t ih =>
    intro h
    cases he : p e with
    | false =>
      rw [List.filterMap_cons, h e (List.mem_cons_self e t) he,
        List.filter_cons_of_neg (by rw [he]; exact Bool.false_ne_true),
        ih (fun x hx hfx => h x (List.mem_cons_of_mem _ hx) hfx)]
    | true =>
      rw [List.filterMap_cons, List.filter_cons_of_pos he,
        List.filterMap_cons,
        ih (fun x hx hfx => h x (List.mem_cons_of_mem _ hx) hfx)]

theorem filterMap_map_congr {α β γ : Type} (f : α → β) (g : β → Option γ)
    (h : α → Option γ) : ∀ l : List α, (∀ x ∈ l, g (f x) = h x) →
      (l.map f).filterMap g = l.filterMap h := by
  intro l
  induction l with
  | nil => intro _; rfl
  | cons e t ih =>
    intro hc
    rw [List.map_cons, List.filterMap_cons, List.filterMap_cons,
      hc e (List.mem_cons_self e t),
      ih (fun x hx => hc x (List.mem_cons_of_mem _ hx))]

theorem flatMap_map_congr {α β γ : Type} (f : α → β) (F : β → List γ)
    (G : α → List γ) : ∀ l : List α, (∀ e ∈ l, F (f e) = G e) →
      (l.map f).flatMap F = l.flatMap G := by
  intro l
  induction l with
  | nil => intro _; rfl
  | cons e t ih =>
    intro hc
    rw [List.map_cons, List.flatMap_cons, List.flatMap_cons,
      hc e (List.mem_cons_self e t),
      ih (fun x hx => hc x (List.mem_cons_of_mem _ hx))]

theorem decoded_edges_eq (v : View) (hwf : view_wf v) (im pm : List Nat)
    (him : ∀ pr ∈ (v.peers.filter (fun p => p.active)).zip
        (renum_peers 0 (v.peers.filter (fun p => p.active))),
      idmap_get im pr.1.pid = pr.2.pid)
    (hpm : ∀ pr ∈ v.paths.zip (renum_paths 0 v.paths),
      idmap_get pm pr.1.idx = pr.2.idx)
    (d : View)
    (hdpe : d.peers = renum_peers 0 (v.peers.filter (fun p => p.active)))
    (hdpa : d.paths = renum_paths 0 v.paths)
    (hdpf : d.pfxs = (v.pfxs.filter (fun e => e.active)).map (fun e =>
      (⟨pfx_norm e, true,
        (e.peers.filter (fun q => q.active)).map
          (decode_pp_map pm im)⟩ : PfxEntry))) :
    View.activeEdges d = View.activeEdges v := by
  obtain ⟨ht, hplen, hpidnd, hsignd, hpwf, hpathlen, hidxnd, hpairnd,
    hpathwf, hpfxlen, hpfxnd, hentry⟩ := hwf
  have hnorm_eq : ∀ e ∈ v.pfxs.filter (fun e => e.active),
      pfx_norm e = e.pfx := by
    intro e he
    obtain ⟨-, hm, -⟩ := hentry e (List.mem_of_mem_filter he)
    unfold pfx_norm
    rw [Nat.mod_eq_of_lt hm]
  have hnd_rpid : ((renum_peers 0
      (v.peers.filter (fun p => p.active))).map (fun p => p.pid)).Nodup := by
    rw [renum_peers_pids]
    exact List.nodup_range' _ _
  have hnd_ridx : ((renum_paths 0 v.paths).map (fun p => p.idx)).Nodup := by
    rw [renum_paths_idxs]
    exact List.nodup_range' _ _
  unfold View.activeEdges
  rw [hdpf]
  have hdrop : ∀ e ∈ v.pfxs, e.active = false →
      e.peers.filterMap (edge_resolve v e.pfx) = [] := by
    intro e he hea
    apply List.filterMap_eq_nil.mpr
    intro q hq
    have hqa : q.active = false := by
      cases hqa2 : q.active with
      | false => rfl
      | true =>
        have := ((hentry e he).2.2.2.2.1).mpr ⟨q, hq, hqa2⟩
        rw [hea] at this
        exact absurd this Bool.false_ne_true
    unfold edge_resolve
    rw [hqa, if_neg Bool.false_ne_true]
  rw [flatMap_filter_eq (fun e => e.active)
    (fun e => e.peers.filterMap (edge_resolve v e.pfx)) v.pfxs hdrop]
  apply flatMap_map_congr
  intro e he
  obtain ⟨-, -, -, -, hiff, hqwf⟩ := hentry e (List.mem_of_mem_filter he)
  have hqdrop : ∀ q ∈ e.peers, q.active = false →
      edge_resolve v e.pfx q = none := by
    intro q _ hqa
    unfold edge_resolve
    rw [hqa, if_neg Bool.false_ne_true]
  rw [filterMap_filter_eq (fun q => q.active)
    (edge_resolve v e.pfx) e.peers hqdrop]
  show ((e.peers.filter (fun q => q.active)).map
      (decode_pp_map pm im)).filterMap (edge_resolve d (pfx_norm e)) =
    (e.peers.filter (fun q => q.active)).filterMap (edge_resolve v e.pfx)
  apply filterMap_map_congr
  intro q hq
  have hqmem := List.mem_filter.mp hq
  have hqa : q.active = true := by simpa using hqmem.2
  obtain ⟨⟨p, hpv, hppid, hpa⟩, ⟨sp, hspv, hspi⟩⟩ := hqwf q hqmem.1 hqa
  have hlp : peer_entry_lookup v q.pid = some p := by
    unfold peer_entry_lookup
    rw [← hppid]
    exact find_key_unique (fun p => p.pid) v.peers hpidnd p hpv
  have hlsp : path_entry_lookup v q.pathIdx = some sp := by
    unfold path_entry_lookup
    rw [← hspi]
    exact find_key_unique (fun p => p.idx) v.paths hidxnd sp hspv
  have hp_f : p ∈ v.peers.filter (fun p => p.active) :=
    List.mem_filter.mpr ⟨hpv, by simpa using hpa⟩
  obtain ⟨rp, hrp⟩ := zip_exists_peers _ 0 p hp_f
  have h1 : idmap_get im q.pid = rp.pid := by
    rw [← hppid]
    exact him (p, rp) hrp
  obtain ⟨rsp, hrsp⟩ := zip_exists_paths _ 0 sp hspv
  have h2 : idmap_get pm q.pathIdx = rsp.idx := by
    rw [← hspi]
    exact hpm (sp, rsp) hrsp
  have hlrp : peer_entry_lookup d (idmap_get im q.pid) = some rp := by
    unfold peer_entry_lookup
    rw [hdpe, h1]
    exact find_key_unique (fun p => p.pid) _ hnd_rpid rp
      (List.of_mem_zip hrp).2
  have hlrsp : path_entry_lookup d (idmap_get pm q.pathIdx) = some rsp := by
    unfold path_entry_lookup
    rw [hdpa, h2]
    exact find_key_unique (fun p => p.idx) _ hnd_ridx rsp
      (List.of_mem_zip hrsp).2
  have hsig : rp.sig = p.sig := (renum_peers_zip _ 0 (p, rp) hrp).1
  have hdata : rsp.data = sp.data := (renum_paths_zip _ 0 (sp, rsp) hrsp).1
  have hcore : rsp.isCore = sp.isCore := by
    rw [(renum_paths_zip _ 0 (sp, rsp) hrsp).2]
    exact Nat.mod_eq_of_lt (hpathwf sp hspv).2.2.1
  unfold edge_resolve decode_pp_map
  dsimp only
  rw [if_pos rfl, if_pos hqa, hlrp, hlrsp, hlp, hlsp]
  dsimp only
  rw [hsig, hdata, hcore, hnorm_eq e he]

theorem decoded_view_equiv (v : View) (hwf : view_wf v) (im pm : List Nat)
    (him : ∀ pr ∈ (v.peers.filter (fun p => p.active)).zip
        (renum_peers 0 (v.peers.filter (fun p => p.active))),
      idmap_get im pr.1.pid = pr.2.pid)
    (hpm : ∀ pr ∈ v.paths.zip (renum_paths 0 v.paths),
      idmap_get pm pr.1.idx = pr.2.idx)
    (d : View)
    (hdt : d.time = v.time)
    (hdpe : d.peers = renum_peers 0 (v.peers.filter (fun p => p.active)))
    (hdpa : d.paths = renum_paths 0 v.paths)
    (hdpf : d.pfxs = (v.pfxs.filter (fun e => e.active)).map (fun e =>
      (⟨pfx_norm e, true,
        (e.peers.filter (fun q => q.active)).map
          (decode_pp_map pm im)⟩ : PfxEntry))) :
    view_equiv_active d v := by
  have hnorm_eq : ∀ e ∈ v.pfxs.filter (fun e => e.active),
      pfx_norm e = e.pfx := by
    intro e he
    obtain ⟨-, hm, -⟩ :=
      hwf.2.2.2.2.2.2.2.2.2.2.2 e (List.mem_of_mem_filter he)
    unfold pfx_norm
    rw [Nat.mod_eq_of_lt hm]
  refine ⟨hdt, ?_, ?_, ?_⟩
  · intro s
    unfold View.activeSigs
    rw [hdpe, List.filter_eq_self.mpr (renum_peers_active _ 0),
      renum_peers_sigs]
  · intro x
    unfold View.activePfxs
    rw [hdpf, List.filter_eq_self.mpr (by
      intro e he
      obtain ⟨e0, -, h0⟩ := List.mem_map.mp he
      subst h0
      rfl), List.map_map]
    rw [show ((fun e : PfxEntry => e.pfx) ∘ (fun e =>
      (⟨pfx_norm e, true,
        (e.peers.filter (fun q => q.active)).map
          (decode_pp_map pm im)⟩ : PfxEntry))) =
      (fun e => pfx_norm e) from rfl]
    rw [List.map_congr_left hnorm_eq]
  · intro x
    rw [decoded_edges_eq v hwf im pm him hpm d hdpe hdpa hdpf]

/-- C1 counterexample: the round trip is NOT an equivalence on the full
peer set. `view_c1_cex` holds one (inactive) peer with signature
`sig_rrc`; `bgpview_io_file_write` encodes only active peers, so the
decode of its output succeeds but yields a view with no peers at all —
the peer set (by signature) is not preserved. -/
theorem file_roundtrip_loses_inactive :
    bgpview_io_file_write view_c1_cex none = some stream_c1_cex ∧
    (bgpview_io_file_read stream_c1_cex empty_view none none none).1 =
      ReadRes.okv ∧
    (bgpview_io_file_read stream_c1_cex empty_view none none none).2.1.peers
      = [] ∧
    view_c1_cex.peers.map (fun p => p.sig) = [sig_rrc] := by
  decide

/-- C1 (corrected): round-trip of the binary codec on the ACTIVE content.
For every wire-representable view `v` (`view_wf`), encoding with
`bgpview_io_file_write` (no filter callbacks) is total, decoding the
resulting stream into a fresh view with `bgpview_io_file_read` succeeds
consuming the whole stream, and the decoded view is equivalent to `v` up
to the decoder's renumbering of peer ids and path ids: same time, same
set of active peer signatures, same set of active prefixes, and same set
of active pfx-peer edges with equal AS-path encodings and core flags.
Inactive peers, inactive prefixes and inactive pfx-peers are not encoded
(see the counterexample), so the claim's unrestricted peer/pfx-set
preservation had to be weakened to the active projection. -/
theorem file_roundtrip_active (v : View) (hwf : view_wf v) :
    ∃ s v2, bgpview_io_file_write v none = some s ∧
      bgpview_io_file_read s empty_view none none none =
        (ReadRes.okv, v2, []) ∧
      view_equiv_active v2 v := by
  obtain ⟨s, hw, hr, him, hpm⟩ := file_read_of_write v hwf
  exact ⟨s, _, hw, hr,
    decoded_view_equiv v hwf _ _ him hpm _ rfl rfl rfl rfl⟩

/-- Witness for C1 at `view_c1_wit`: a concrete well-formed, fully active
one-peer one-path one-prefix view. -/
theorem file_roundtrip_active_witness :
    view_wf view_c1_wit ∧
    (∃ s v2, bgpview_io_file_write view_c1_wit none = some s ∧
      bgpview_io_file_read s empty_view none none none =
        (ReadRes.okv, v2, []) ∧
      view_equiv_active v2 view_c1_wit) :=
  ⟨by decide, file_roundtrip_active view_c1_wit (by decide)⟩
